import Mathlib

/-!
# A verification model of the `localmr` single-machine MapReduce engine

This file gives a shallow embedding, in Lean, of the core data paths of the
`localmr` Rust library and proves properties of them:

* the sort/compare utilities (`src/sort.rs`, also duplicated in
  `src/shard_merge.rs`): `dict_char_compare`, `dict_string_compare`,
  `sane_char_compare`, `sane_string_compare`;
* the WriteLog codec (`src/formats/writelog.rs`): `encode_u32`, `decode_u32`,
  the writer `WriteLogWriter::write` with its byte/record counters, the reader
  functions `read_bytes`, `read_vec` and the reader's record iterator;
* the K-way merge tree (`src/shard_merge.rs`): `ShardMergeIterator` with its
  `next`, `_build` and `merge` functions;
* the group-by-key adaptor (`src/reduce.rs`): `RecordsToMultiRecords::next`;
* the map partition (`src/map.rs` and `src/phases/map.rs`): `sort_input`,
  `insert_result`, `setup_output`, `write_output`, and the intermediate file
  names used by the controller (`src/controller.rs`).

Modelling conventions:

* Rust byte strings and `String`s are modelled as `List Nat` (the sequence of
  code points / byte values).  Rust's `String` comparison is byte-wise
  lexicographic on UTF-8, which coincides with code-point lexicographic order,
  so the natural `String` order is `strCmpWith natCmp`.
* Machine integers are `Nat` with explicit `% 2^32` / `% 2^64` where the code
  can overflow (`as u32` casts, the `u64`/`u32` running counters).
* Rust iterators are modelled as `List`s (all iterators involved are finite);
  a `next` method becomes a function from a state to `Option (item × state)`.
* Fallible operations return `Except String` or `Option`.
-/

/-! ## Ordering utilities and comparator laws -/

/-- The natural comparator on `Nat`; this models both Rust's `Ord for char`
(code-point order) and `Ord for u8`. -/
def natCmp (a b : Nat) : Ordering :=
  if a < b then .lt else if a = b then .eq else .gt

/-- Laws a sane comparator satisfies: antisymmetry of the ordering result and
transitivity of the induced `≤`.  Rust's `Ord` contract (a total order) implies
them, and so do the library's dictionary comparators. -/
structure CmpLaws {α : Type _} (cmp : α → α → Ordering) : Prop where
  symm : ∀ a b, cmp a b = (cmp b a).swap
  le_trans : ∀ a b c, cmp a b ≠ .gt → cmp b c ≠ .gt → cmp a c ≠ .gt

/-! ## The comparators of `src/sort.rs`

`char::to_ascii_lowercase` maps the code points of ASCII upper-case letters
(65–90) to the corresponding lower-case letters and leaves every other code
point unchanged. -/

/-- Model of Rust's `char::to_ascii_lowercase` on a code point. -/
def lowerChar (c : Nat) : Nat :=
  if 65 ≤ c ∧ c ≤ 90 then c + 32 else c

/-- Model of Rust's `str::to_ascii_lowercase` (`src/reduce.rs` uses it on
keys): byte-wise ASCII lowering. -/
def asciiLower (s : List Nat) : List Nat :=
  s.map lowerChar

/-- `dict_char_compare` from `src/sort.rs`: compare the lower-cased
code points. -/
def dict_char_compare (a b : Nat) : Ordering :=
  natCmp (lowerChar a) (lowerChar b)

/-- `sane_char_compare` from `src/sort.rs`: compare lower-cased; on a tie of
distinct characters flip the native order, so the upper-case letter sorts
greater. -/
def sane_char_compare (a b : Nat) : Ordering :=
  let cmp := natCmp (lowerChar a) (lowerChar b)
  if cmp = .eq then
    match natCmp a b with
    | .eq => .eq
    | .lt => .gt
    | .gt => .lt
  else cmp

/-- The common character-by-character string comparison loop of
`dict_string_compare` / `sane_string_compare` (`src/sort.rs`): on exhaustion
the longer string is greater; otherwise the first non-equal character
comparison decides. -/
def strCmpWith (c : Nat → Nat → Ordering) : List Nat → List Nat → Ordering
  | [], [] => .eq
  | _ :: _, [] => .gt
  | [], _ :: _ => .lt
  | x :: xs, y :: ys =>
    match c x y with
    | .eq => strCmpWith c xs ys
    | cmp => cmp

/-- `dict_string_compare` from `src/sort.rs`: totally case-insensitive
dictionary comparison. -/
def dict_string_compare (a b : List Nat) : Ordering :=
  strCmpWith dict_char_compare a b

/-- `sane_string_compare` from `src/sort.rs`: dictionary comparison where a
case difference on otherwise equal characters is decided upper-case-greater. -/
def sane_string_compare (a b : List Nat) : Ordering :=
  strCmpWith sane_char_compare a b

/-- Rust's native `Ord for String`: lexicographic on UTF-8 bytes, which agrees
with lexicographic code-point order.  This is the order of the
`BTreeMap<String, _>` used by `MapPartition` in `src/map.rs`. -/
def rustStrCmp (a b : List Nat) : Ordering :=
  strCmpWith natCmp a b

/-- Convert a Lean string literal to its code-point model. -/
def str (s : String) : List Nat :=
  s.data.map Char.toNat

/-! ## The WriteLog codec (`src/formats/writelog.rs`)

The writer is generic over any `Sink: Write`; a sink is modelled as a state
`σ` together with a write function `σ → List Nat → σ × Option Nat` returning
the new state and `some bytes_written` on success or `none` on error (Rust's
`io::Result<usize>`, with the error payload abstracted away). -/

/-- `encode_u32` from `src/formats/writelog.rs`: 4 bytes, big-endian
(`buf[3 - i] = (val >> 8 * i) as u8`). -/
def encode_u32 (val : Nat) : List Nat :=
  [val >>> 24 % 256, val >>> 16 % 256, val >>> 8 % 256, val % 256]

/-- `decode_u32` from `src/formats/writelog.rs`
(`val |= buf[3 - i] << i * 8`). -/
def decode_u32 (buf : List Nat) : Nat :=
  buf.getD 3 0 + buf.getD 2 0 * 2 ^ 8 + buf.getD 1 0 * 2 ^ 16 + buf.getD 0 0 * 2 ^ 24

/-- The state of a `WriteLogWriter<Sink>`: the sink plus the running
`u64`/`u32` counters. -/
structure WriteLogWriter (σ : Type) where
  dest : σ
  current_length : Nat
  records_written : Nat

/-- `WriteLogWriter::write`: write the 4-byte big-endian length prefix of
`buf.len() as u32`, then the payload (both sub-writes always execute; the
result is `r1.and(r2)`, so the first error wins).  The `u64` byte counter and
`u32` record counter advance only when the combined result is `Ok`. -/
def WriteLogWriter.write {σ : Type} (wr : σ → List Nat → σ × Option Nat)
    (w : WriteLogWriter σ) (buf : List Nat) : WriteLogWriter σ × Option Nat :=
  let s1 := wr w.dest (encode_u32 (buf.length % 2 ^ 32))
  let s2 := wr s1.1 buf
  let result : Option Nat :=
    match s1.2 with
    | none => none
    | some _ => s2.2
  match result with
  | none => ({ w with dest := s2.1 }, none)
  | some n =>
    ({ dest := s2.1,
       current_length := (w.current_length + (4 + buf.length) % 2 ^ 64) % 2 ^ 64,
       records_written := (w.records_written + 1) % 2 ^ 32 }, some n)

/-- `WriteLogWriter::get_stats`: how many (bytes, records) have been
written. -/
def WriteLogWriter.get_stats {σ : Type} (w : WriteLogWriter σ) : Nat × Nat :=
  (w.current_length, w.records_written)

/-- The sink used for intermediate files behaves like `Vec<u8>` in the
reference tests: an in-memory byte buffer whose `write` appends everything and
always succeeds. -/
def vecSink (s : List Nat) (buf : List Nat) : List Nat × Option Nat :=
  (s ++ buf, some buf.length)

/-- A fresh `WriteLogWriter::new` over an empty in-memory sink. -/
def freshWriter : WriteLogWriter (List Nat) :=
  { dest := [], current_length := 0, records_written := 0 }

/-- Write a sequence of byte strings, one `write` call each. -/
def writeAll (ss : List (List Nat)) : WriteLogWriter (List Nat) :=
  ss.foldl (fun w s => (WriteLogWriter.write vecSink w s).1) freshWriter

/-- The on-disk bytes of one entry, as produced by a successful
`WriteLogWriter::write`. -/
def encodeEntry (s : List Nat) : List Nat :=
  encode_u32 (s.length % 2 ^ 32) ++ s

/-! The reader.  Its source (`Box<Read>`) is modelled as the remaining byte
list; one `Read::read` call into a slot of `n` free bytes returns
`min n remaining` bytes (the behaviour of an in-memory/buffered source). -/

/-- The loop body of `WriteLogReader::read_bytes`: `acc` holds the bytes read
so far (`buf[0..off]`).  Each round reads up to `len - acc.length` bytes; on a
zero-length read it fails with "Could not read enough data" unless `len = 0`;
when the total reaches `len` it succeeds.  Returns the filled buffer and the
remaining source.  The fuel argument only bounds the recursion (each round
reads at least one byte, so `len + 1` rounds always suffice); the fuel-out
value is never reached with that fuel. -/
def WriteLogReader.read_bytes_go : Nat → List Nat → List Nat → Nat →
    Except String (List Nat × List Nat)
  | 0, _, _, _ => .error "fuel exhausted"
  | fuel + 1, src, acc, len =>
    let got := src.take (len - acc.length)
    let rest := src.drop (len - acc.length)
    if got.length = 0 then
      if 0 < len then .error "Could not read enough data" else .ok (acc, src)
    else if acc.length + got.length < len then
      WriteLogReader.read_bytes_go fuel rest (acc ++ got) len
    else
      .ok (acc ++ got, rest)

/-- `WriteLogReader::read_bytes` (`src/formats/writelog.rs`, lines 200–223):
read exactly `len` bytes or fail. -/
def WriteLogReader.read_bytes (src : List Nat) (len : Nat) :
    Except String (List Nat × List Nat) :=
  WriteLogReader.read_bytes_go (len + 1) src [] len

/-- `WriteLogReader::read_vec` (`src/formats/writelog.rs`, lines 227–250):
read a 4-byte length prefix, decode it, then read that many payload bytes. -/
def WriteLogReader.read_vec (src : List Nat) : Except String (List Nat × List Nat) :=
  match WriteLogReader.read_bytes src 4 with
  | .error e => .error e
  | .ok (lengthbuf, rest) =>
    let length := decode_u32 lengthbuf
    match WriteLogReader.read_bytes rest length with
    | .error e => .error e
    | .ok (buffer, rest2) => .ok (buffer, rest2)

/-- Validity condition of Rust's `String::from_utf8` on a byte sequence
(RFC 3629 UTF-8: continuation ranges, no overlongs, no surrogates, max
U+10FFFF). -/
def utf8Valid : List Nat → Bool
  | [] => true
  | b :: rest =>
    if b ≤ 0x7F then utf8Valid rest
    else if 0xC2 ≤ b ∧ b ≤ 0xDF then
      match rest with
      | c1 :: r => 0x80 ≤ c1 && c1 ≤ 0xBF && utf8Valid r
      | [] => false
    else if 0xE0 ≤ b ∧ b ≤ 0xEF then
      match rest with
      | c1 :: c2 :: r =>
        let lo1 : Nat := if b = 0xE0 then 0xA0 else 0x80
        let hi1 : Nat := if b = 0xED then 0x9F else 0xBF
        lo1 ≤ c1 && c1 ≤ hi1 && 0x80 ≤ c2 && c2 ≤ 0xBF && utf8Valid r
      | _ => false
    else if 0xF0 ≤ b ∧ b ≤ 0xF4 then
      match rest with
      | c1 :: c2 :: c3 :: r =>
        let lo1 : Nat := if b = 0xF0 then 0x90 else 0x80
        let hi1 : Nat := if b = 0xF4 then 0x8F else 0xBF
        lo1 ≤ c1 && c1 ≤ hi1 && 0x80 ≤ c2 && c2 ≤ 0xBF && 0x80 ≤ c3 && c3 ≤ 0xBF &&
          utf8Valid r
      | _ => false
    else false

/-- `Iterator::next for WriteLogReader` (`src/formats/writelog.rs`, lines
253–269): run `read_vec`; on any read error end the iteration; otherwise
convert to a string with `String::from_utf8` and end the iteration if the
payload is not valid UTF-8.  The yielded item is modelled by the payload
bytes. -/
def WriteLogReader.next (src : List Nat) : Option (List Nat × List Nat) :=
  match WriteLogReader.read_vec src with
  | .error _ => none
  | .ok (v, rest) => if utf8Valid v then some (v, rest) else none

/-- Drain a source with repeated `read_vec` calls, collecting the payloads
until the first error; also return the unconsumed remainder at that point.
The fuel argument bounds the recursion; `src.length + 1` is always enough
because every successful `read_vec` consumes at least its 4 prefix bytes. -/
def readVecAllGo : Nat → List Nat → List (List Nat) × List Nat
  | 0, src => ([], src)
  | fuel + 1, src =>
    match WriteLogReader.read_vec src with
    | .error _ => ([], src)
    | .ok (v, rest) =>
      let p := readVecAllGo fuel rest
      (v :: p.1, p.2)

/-- All payloads obtainable from a source by `read_vec`, with the leftover
bytes at the first failure. -/
def read_vec_all (src : List Nat) : List (List Nat) × List Nat :=
  readVecAllGo (src.length + 1) src

/-! ## The K-way merge tree (`src/shard_merge.rs`)

A `ShardMergeIterator` holds two child iterators and two peek slots.  The
children are arbitrary boxed iterators: either plain input iterators (modelled
by a `leaf` holding the not-yet-yielded items), or merge nodes.  In Rust every
node built by `_build` stores the same `comparer: Option<Comparer<T>>` and
`compare` dispatches to it, falling back to `T::Ord`; the model passes that
one effective comparator `cmp` (for `build` it is the natural `compare`, for
`build_with_cmp` the supplied function) as a parameter instead of storing it
in every node. -/

inductive ShardMergeIterator (α : Type _) where
  | leaf : List α → ShardMergeIterator α
  | node : ShardMergeIterator α → ShardMergeIterator α → Option α → Option α →
      ShardMergeIterator α

/-- `Iterator::next for ShardMergeIterator` (`src/shard_merge.rs`, lines
27–64).  First the fill-up step: each empty peek slot is filled from its
child (the Rust `match` fills both when both are empty and the missing one
when exactly one is empty, which is the same thing).  Then the consume step:
with both slots empty the stream ends; with one filled it is returned; with
both filled the comparator decides, ties going left. -/
def ShardMergeIterator.next {α : Type _} (cmp : α → α → Ordering) :
    ShardMergeIterator α → Option (α × ShardMergeIterator α)
  | .leaf [] => none
  | .leaf (a :: rest) => some (a, .leaf rest)
  | .node l r lp rp =>
    let lf : ShardMergeIterator α × Option α :=
      match lp with
      | some x => (l, some x)
      | none =>
        match ShardMergeIterator.next cmp l with
        | none => (l, none)
        | some (a, l2) => (l2, some a)
    let rf : ShardMergeIterator α × Option α :=
      match rp with
      | some x => (r, some x)
      | none =>
        match ShardMergeIterator.next cmp r with
        | none => (r, none)
        | some (a, r2) => (r2, some a)
    match lf.2, rf.2 with
    | none, none => none
    | some a, none => some (a, .node lf.1 rf.1 none none)
    | none, some b => some (b, .node lf.1 rf.1 none none)
    | some a, some b =>
      match cmp a b with
      | .gt => some (b, .node lf.1 rf.1 (some a) none)
      | _ => some (a, .node lf.1 rf.1 none (some b))

/-- `ShardMergeIterator::default()`: both children empty, no peeked values. -/
def ShardMergeIterator.default (α : Type _) : ShardMergeIterator α :=
  .node (.leaf []) (.leaf []) none none

/-- The initial pairing loop of `ShardMergeIterator::_build` (lines 96–123):
consume the sources two at a time; a trailing odd source is paired with an
empty iterator. -/
def ShardMergeIterator.buildPairs {α : Type _} :
    List (List α) → List (ShardMergeIterator α)
  | [] => []
  | [s1] => [.node (.leaf s1) (.leaf []) none none]
  | s1 :: s2 :: rest => .node (.leaf s1) (.leaf s2) none none :: buildPairs rest

/-- `ShardMergeIterator::merge` (lines 138–165): fold a list of iterators
into a balanced binary tree, splitting at `len / 2`.  The fuel argument only
bounds the recursion (`its.length` always suffices because both halves of a
list of length ≥ 3 are shorter); the fuel-out value is never reached with
that fuel. -/
def ShardMergeIterator.mergeGo {α : Type _} :
    Nat → List (ShardMergeIterator α) → ShardMergeIterator α
  | _, [] => ShardMergeIterator.default α
  | _, [t] => .node t (.leaf []) none none
  | _, [t1, t2] => .node t1 t2 none none
  | 0, t :: _ :: _ :: _ => t
  | fuel + 1, t1 :: t2 :: t3 :: ts =>
    let its := t1 :: t2 :: t3 :: ts
    let split_at := its.length / 2
    .node (mergeGo fuel (its.take split_at)) (mergeGo fuel (its.drop split_at)) none none

/-- `ShardMergeIterator::merge` with its fuel instantiated. -/
def ShardMergeIterator.merge {α : Type _} (its : List (ShardMergeIterator α)) :
    ShardMergeIterator α :=
  ShardMergeIterator.mergeGo its.length its

/-- `ShardMergeIterator::_build` (lines 91–127): pair up the sources, then
recursively merge.  `build` calls it with the natural comparator, and
`build_with_cmp` with the supplied one. -/
def ShardMergeIterator._build {α : Type _} (srcs : List (List α)) :
    ShardMergeIterator α :=
  ShardMergeIterator.merge (ShardMergeIterator.buildPairs srcs)

/-- `ShardMergeIterator::build_with_cmp` composed with draining the iterator:
here `_build` does not depend on the comparator (it is only stored), so the
build itself is comparator-free and `next` takes the comparator. -/
def ShardMergeIterator.build_with_cmp {α : Type _} (srcs : List (List α)) :
    ShardMergeIterator α :=
  ShardMergeIterator._build srcs

/-- Total number of items still to be yielded: the contents of the leaves
plus the filled peek slots. -/
def ShardMergeIterator.size {α : Type _} : ShardMergeIterator α → Nat
  | .leaf l => l.length
  | .node l r lp rp => size l + size r + lp.toList.length + rp.toList.length

/-- All items still inside the tree, in no particular order. -/
def ShardMergeIterator.elems {α : Type _} : ShardMergeIterator α → List α
  | .leaf l => l
  | .node l r lp rp => lp.toList ++ elems l ++ rp.toList ++ elems r

/-- Drain the iterator by repeated `next`, with fuel (`size t` is exactly
enough, since every `next` yields one held item or ends the stream). -/
def ShardMergeIterator.toListGo {α : Type _} (cmp : α → α → Ordering) :
    Nat → ShardMergeIterator α → List α
  | 0, _ => []
  | fuel + 1, t =>
    match ShardMergeIterator.next cmp t with
    | none => []
    | some (a, t2) => a :: toListGo cmp fuel t2

/-- The complete output sequence of a `ShardMergeIterator` under comparator
`cmp`. -/
def ShardMergeIterator.toList {α : Type _} (cmp : α → α → Ordering)
    (t : ShardMergeIterator α) : List α :=
  ShardMergeIterator.toListGo cmp t.size t

/-! ## Records, parameters, and the group-by-key adaptor (`src/reduce.rs`) -/

/-- A `(key, value)` pair (`src/record_types.rs`). -/
structure Record where
  key : List Nat
  value : List Nat
deriving DecidableEq

/-- A `(key, values)` pair delivered to a reducer call
(`src/record_types.rs`). -/
structure MultiRecord where
  key : List Nat
  values : List (List Nat)
deriving DecidableEq

/-- `MRParameters` (`src/parameters.rs`) with the defaults of
`MRParameters::new()`.  Only the fields the verified components read are
modelled; `reduce_output_shard_pfx` and `keep_temp_files` configure the
cleanup/output paths that no claim touches. -/
structure MRParameters where
  key_buffer_size : Nat := 256
  mappers : Nat := 4
  reducers : Nat := 4
  map_partition_size : Nat := 100 * 1024 * 1024
  reduce_group_prealloc_size : Nat := 1
  reduce_group_insensitive : Bool := false
  map_output_location : String := "map_intermediate_"
  shard_id : Nat := 0

/-- `MRParameters::new()`. -/
def MRParameters.new : MRParameters := {}

/-- The key under which `RecordsToMultiRecords` groups a record: the raw key,
or its ASCII-lowered form when `reduce_group_insensitive` is set. -/
def groupKey (params : MRParameters) (k : List Nat) : List Nat :=
  if params.reduce_group_insensitive then asciiLower k else k

/-- The inner loop of `RecordsToMultiRecords::next` (`src/reduce.rs`, lines
99–112): peek; while the (possibly lowered) key of the next record equals
`key`, consume it and push its value.  Returns the collected values and the
remaining records. -/
def RecordsToMultiRecords.takeGroup (params : MRParameters) (key : List Nat) :
    List Record → List (List Nat) × List Record
  | [] => ([], [])
  | r :: rest =>
    if groupKey params r.key ≠ key then
      ([], r :: rest)
    else
      let p := RecordsToMultiRecords.takeGroup params key rest
      (r.value :: p.1, p.2)

/-- `Iterator::next for RecordsToMultiRecords` (`src/reduce.rs`, lines
82–115): take the next record, fix the group key (lowered when insensitive),
collect every directly following record with the same group key, and emit one
`MultiRecord`. -/
def RecordsToMultiRecords.next (params : MRParameters) (rs : List Record) :
    Option (MultiRecord × List Record) :=
  match rs with
  | [] => none
  | r :: rest =>
    let key := if params.reduce_group_insensitive then asciiLower r.key else r.key
    let p := RecordsToMultiRecords.takeGroup params key rest
    some ({ key := key, values := r.value :: p.1 }, p.2)

/-- Drain the adaptor; the fuel argument only bounds the recursion
(`rs.length` always suffices because every `next` consumes at least one
record). -/
def RecordsToMultiRecords.drain (params : MRParameters) :
    Nat → List Record → List MultiRecord
  | 0, _ => []
  | fuel + 1, rs =>
    match RecordsToMultiRecords.next params rs with
    | none => []
    | some (m, rest) => m :: RecordsToMultiRecords.drain params fuel rest

/-- The complete output sequence of the group-by-key adaptor. -/
def RecordsToMultiRecords.toList (params : MRParameters) (rs : List Record) :
    List MultiRecord :=
  RecordsToMultiRecords.drain params rs.length rs

/-- The hypothesis of the group-by law: records with equal group keys are
adjacent.  Checked on the list of group keys: whenever the head key occurs
again in the tail, it must still be the very next key. -/
def grpAdj : List (List Nat) → Bool
  | [] => true
  | k :: l => (!l.contains k || l.head? == some k) && grpAdj l

/-! ## The ordered map of the map partition (`src/map.rs`, `src/phases/map.rs`)

`MapPartition` keeps its sorted input and sorted output in `BTreeMap`s.  A
`BTreeMap` is modelled as an association list strictly sorted by the key
comparator; `insert` replaces the value (keeping the stored key) when the
comparator says the keys are equal, exactly like `BTreeMap::insert`.  In
`src/map.rs` the comparator is `String`'s native order (`rustStrCmp`); in
`src/phases/map.rs` the keys are wrapped in `DictComparableString`, whose
`Ord` is `dict_string_compare`. -/

/-- `BTreeMap::insert` on a strictly sorted association list. -/
def btInsert {β : Type _} (cmp : List Nat → List Nat → Ordering)
    (k : List Nat) (v : β) : List (List Nat × β) → List (List Nat × β)
  | [] => [(k, v)]
  | (k2, v2) :: t =>
    match cmp k k2 with
    | .lt => (k, v) :: (k2, v2) :: t
    | .eq => (k2, v) :: t
    | .gt => (k2, v2) :: btInsert cmp k v t

/-- `BTreeMap::remove`: take out the value stored under a key equal (under
the comparator) to `k`, if any. -/
def btRemove {β : Type _} (cmp : List Nat → List Nat → Ordering)
    (k : List Nat) : List (List Nat × β) → Option β × List (List Nat × β)
  | [] => (none, [])
  | (k2, v2) :: t =>
    match cmp k k2 with
    | .eq => (some v2, t)
    | _ =>
      let p := btRemove cmp k t
      (p.1, (k2, v2) :: p.2)

/-- `BTreeMap::get`: the value stored under a key equal (under the
comparator) to `k`, if any. -/
def btFind {β : Type _} (cmp : List Nat → List Nat → Ordering)
    (k : List Nat) : List (List Nat × β) → Option β
  | [] => none
  | (k2, v2) :: t => if cmp k k2 = .eq then some v2 else btFind cmp k t

/-- `MapPartition::sort_input` (`src/map.rs` lines 51–60, `src/phases/map.rs`
lines 59–68): drain the input into the sorted-input map; inserting an
existing key replaces the value. -/
def MapPartition.sort_input (cmp : List Nat → List Nat → Ordering)
    (input : List Record) : List (List Nat × List Nat) :=
  input.foldl (fun m r => btInsert cmp r.key r.value m) []

/-- `MapPartition::insert_result` (`src/map.rs` lines 128–145): append each
emitted record's value to the vector stored under its key in the
sorted-output map (remove, push, re-insert). -/
def MapPartition.insert_result (cmp : List Nat → List Nat → Ordering)
    (m : List (List Nat × List (List Nat))) (emitted : List Record) :
    List (List Nat × List (List Nat)) :=
  emitted.foldl
    (fun m r =>
      match btRemove cmp r.key m with
      | (none, m2) => btInsert cmp r.key [r.value] m2
      | (some v, m2) => btInsert cmp r.key (v ++ [r.value]) m2)
    m

/-- `MapPartition::write_output` (`src/map.rs` lines 107–126): iterate the
sorted-output map in key order; for each `(key, values)` compute
`shard = sharder(reducers, key)` and append `key` then `v` as two consecutive
WriteLog entries of intermediate file `shard`, for every value `v`.  A file
is modelled as its list of entries. -/
def MapPartition.write_output (reducers : Nat)
    (sharder : Nat → List Nat → Nat)
    (sorted_output : List (List Nat × List (List Nat))) :
    List (List (List Nat)) :=
  sorted_output.foldl
    (fun outputs kv =>
      let shard := sharder reducers kv.1
      kv.2.foldl
        (fun outputs v => outputs.set shard (outputs.getD shard [] ++ [kv.1, v]))
        outputs)
    (List.replicate reducers [])

/-! ## Intermediate file names (`src/map.rs`, `src/controller.rs`) -/

/-- The name under which `MapPartition::setup_output` (`src/map.rs`, lines
93–105) creates the intermediate sink for reducer `i`:
`format!("mapout_{}.{}", params.shard_id, i)` — a hard-coded prefix, passed
verbatim to `SinkGenerator::new_output` (the controller's
`WriteLogGenerator` opens exactly this path). -/
def MapPartition.setup_output_name (params : MRParameters) (i : Nat) : String :=
  "mapout_" ++ toString params.shard_id ++ "." ++ toString i

/-- The name `open_reduce_inputs` (`src/controller.rs`, lines 34–47) opens for
map chunk `part` and reduce shard `shard`:
`format!("{}{}.{}", params.map_output_location, part, shard)`. -/
def open_reduce_inputs_name (params : MRParameters) (part : Nat) (shard : Nat) : String :=
  params.map_output_location ++ toString part ++ "." ++ toString shard

/-! ## Lemmas about the merge tree -/

/-- The fill-up step of `next` for one (child, peek slot) pair: an empty slot
is filled from the child. -/
def ShardMergeIterator.fillP {α : Type _} (cmp : α → α → Ordering)
    (c : ShardMergeIterator α) (s : Option α) : ShardMergeIterator α × Option α :=
  match s with
  | some x => (c, some x)
  | none =>
    match ShardMergeIterator.next cmp c with
    | none => (c, none)
    | some (a, c2) => (c2, some a)

/-- The consume step of `next`: with both slots empty the stream ends; with
one filled return it; with both filled the comparator decides, ties left. -/
def ShardMergeIterator.consume {α : Type _} (cmp : α → α → Ordering)
    (lf rf : ShardMergeIterator α × Option α) : Option (α × ShardMergeIterator α) :=
  match lf.2, rf.2 with
  | none, none => none
  | some a, none => some (a, .node lf.1 rf.1 none none)
  | none, some b => some (b, .node lf.1 rf.1 none none)
  | some a, some b =>
    match cmp a b with
    | .gt => some (b, .node lf.1 rf.1 (some a) none)
    | _ => some (a, .node lf.1 rf.1 none (some b))

/-- The invariant of a merge tree: input lists are sorted (non-decreasing
under the comparator) and every filled peek slot is a lower bound of its
subtree. -/
def ShardMergeIterator.inv {α : Type _} (cmp : α → α → Ordering) :
    ShardMergeIterator α → Prop
  | .leaf l => l.Pairwise (fun a b => cmp a b ≠ .gt)
  | .node l r lp rp =>
      ShardMergeIterator.inv cmp l ∧ ShardMergeIterator.inv cmp r ∧
      (∀ a, lp = some a → ∀ x ∈ l.elems, cmp a x ≠ .gt) ∧
      (∀ b, rp = some b → ∀ x ∈ r.elems, cmp b x ≠ .gt)

/-- The six integer source vectors of the reference tests in
`src/shard_merge.rs` (`test_merge_large`): 52 elements in total. -/
def sixTestVectors : List (List Nat) :=
  [[1, 4, 5, 5, 6, 9, 11, 15, 15, 17, 18, 20],
   [2, 2, 2, 3, 4, 5, 7, 8, 9, 10, 45, 46, 47],
   [5, 8, 9, 10, 22, 25, 30, 37, 41, 46, 71],
   [111, 112, 113, 155],
   [13, 45, 98, 105, 145],
   [14, 67, 99, 111, 222, 566, 643]]

/-! ## Theorems -/

namespace CmpLaws

variable {α : Type _} {cmp : α → α → Ordering}

theorem eq_symm (h : CmpLaws cmp) (hab : cmp a b = .eq) : cmp b a = .eq := by
  have := h.symm a b
  rw [hab] at this
  cases hba : cmp b a <;> rw [hba] at this <;> simp [Ordering.swap] at this <;> rfl

theorem lt_of_gt (h : CmpLaws cmp) (hab : cmp a b = .gt) : cmp b a = .lt := by
  have := h.symm a b
  rw [hab] at this
  cases hba : cmp b a <;> rw [hba] at this <;> simp_all [Ordering.swap]

theorem gt_of_lt (h : CmpLaws cmp) (hab : cmp a b = .lt) : cmp b a = .gt := by
  have := h.symm a b
  rw [hab] at this
  cases hba : cmp b a <;> rw [hba] at this <;> simp_all [Ordering.swap]

theorem le_of_lt (h : CmpLaws cmp) (hab : cmp a b = .lt) : cmp a b ≠ .gt := by simp [hab]

theorem le_of_eq (h : CmpLaws cmp) (hab : cmp a b = .eq) : cmp a b ≠ .gt := by simp [hab]

theorem lt_trans (h : CmpLaws cmp) (hab : cmp a b = .lt) (hbc : cmp b c = .lt) : cmp a c = .lt := by
  have hac : cmp a c ≠ .gt := h.le_trans a b c (h.le_of_lt hab) (h.le_of_lt hbc)
  cases hc : cmp a c with
  | lt => rfl
  | gt => exact absurd hc hac
  | eq =>
    have hca : cmp c a = .eq := h.eq_symm hc
    have : cmp b a ≠ .gt := h.le_trans b c a (h.le_of_lt hbc) (h.le_of_eq hca)
    exact absurd (h.gt_of_lt hab) this

theorem eq_trans (h : CmpLaws cmp) (hab : cmp a b = .eq) (hbc : cmp b c = .eq) : cmp a c = .eq := by
  have h1 : cmp a c ≠ .gt := h.le_trans a b c (h.le_of_eq hab) (h.le_of_eq hbc)
  have h2 : cmp c a ≠ .gt :=
    h.le_trans c b a (h.le_of_eq (h.eq_symm hbc)) (h.le_of_eq (h.eq_symm hab))
  cases hc : cmp a c with
  | eq => rfl
  | gt => exact absurd hc h1
  | lt => exact absurd (h.gt_of_lt hc) h2

theorem lt_trans_of_lt_of_eq (h : CmpLaws cmp) (hab : cmp a b = .lt) (hbc : cmp b c = .eq) : cmp a c = .lt := by
  have h1 : cmp a c ≠ .gt := h.le_trans a b c (h.le_of_lt hab) (h.le_of_eq hbc)
  cases hc : cmp a c with
  | lt => rfl
  | gt => exact absurd hc h1
  | eq =>
    have : cmp a b = .eq := h.eq_trans hc (h.eq_symm hbc)
    simp [hab] at this

theorem lt_trans_of_eq_of_lt (h : CmpLaws cmp) (hab : cmp a b = .eq) (hbc : cmp b c = .lt) : cmp a c = .lt := by
  have h1 : cmp a c ≠ .gt := h.le_trans a b c (h.le_of_eq hab) (h.le_of_lt hbc)
  cases hc : cmp a c with
  | lt => rfl
  | gt => exact absurd hc h1
  | eq =>
    have : cmp b c = .eq := h.eq_trans (h.eq_symm hab) hc
    simp [hbc] at this

end CmpLaws

theorem natCmp_laws : CmpLaws natCmp := by
  constructor
  · intro a b
    unfold natCmp
    rcases Nat.lt_trichotomy a b with hl | he | hg
    · simp [hl, Nat.not_lt_of_lt hl, Nat.ne_of_gt hl, Ordering.swap]
    · simp [he, Ordering.swap]
    · simp [hg, Nat.not_lt_of_lt hg, Nat.ne_of_gt hg, (Nat.ne_of_gt hg).symm, Ordering.swap]
  · intro a b c hab hbc
    unfold natCmp at *
    by_cases h1 : a < b <;> by_cases h2 : a = b <;> simp_all <;> omega

theorem strCmpWith_laws {c : Nat → Nat → Ordering} (hc : CmpLaws c) :
    CmpLaws (strCmpWith c) := by
  constructor
  · intro a b
    induction a generalizing b with
    | nil => cases b <;> simp [strCmpWith, Ordering.swap]
    | cons x xs ih =>
      cases b with
      | nil => simp [strCmpWith, Ordering.swap]
      | cons y ys =>
        simp only [strCmpWith]
        have hsy := hc.symm x y
        cases hxy : c x y with
        | eq =>
          have : c y x = .eq := hc.eq_symm hxy
          simp [this, ih ys]
        | lt =>
          have : c y x = .gt := hc.gt_of_lt hxy
          simp [this, Ordering.swap]
        | gt =>
          have : c y x = .lt := hc.lt_of_gt hxy
          simp [this, Ordering.swap]
  · intro a b d hab hbd
    induction a generalizing b d with
    | nil =>
      cases b with
      | nil => cases d <;> simp_all [strCmpWith]
      | cons y ys => cases d <;> simp_all [strCmpWith]
    | cons x xs ih =>
      cases b with
      | nil => simp [strCmpWith] at hab
      | cons y ys =>
        cases d with
        | nil => simp [strCmpWith] at hbd
        | cons z zs =>
          simp only [strCmpWith] at hab hbd ⊢
          cases hxy : c x y with
          | gt => simp [hxy] at hab
          | eq =>
            cases hyz : c y z with
            | gt => simp [hyz] at hbd
            | eq =>
              have hxz : c x z = .eq := hc.eq_trans hxy hyz
              rw [hxy] at hab; rw [hyz] at hbd
              simp only [hxz]
              exact ih ys zs hab hbd
            | lt =>
              have hxz : c x z = .lt := hc.lt_trans_of_eq_of_lt hxy hyz
              simp [hxz]
          | lt =>
            cases hyz : c y z with
            | gt => simp [hyz] at hbd
            | eq =>
              have hxz : c x z = .lt := hc.lt_trans_of_lt_of_eq hxy hyz
              simp [hxz]
            | lt =>
              have hxz : c x z = .lt := hc.lt_trans hxy hyz
              simp [hxz]

theorem dict_char_compare_laws : CmpLaws dict_char_compare := by
  constructor
  · intro a b
    exact natCmp_laws.symm (lowerChar a) (lowerChar b)
  · intro a b c
    exact natCmp_laws.le_trans (lowerChar a) (lowerChar b) (lowerChar c)

theorem dict_string_compare_laws : CmpLaws dict_string_compare :=
  strCmpWith_laws dict_char_compare_laws

theorem rustStrCmp_laws : CmpLaws rustStrCmp :=
  strCmpWith_laws natCmp_laws

/-! ## Lemmas about the WriteLog codec -/

theorem decode_encode_u32 (n : Nat) (h : n < 2 ^ 32) :
    decode_u32 (encode_u32 n) = n := by
  simp only [encode_u32, decode_u32, List.getD, Nat.shiftRight_eq_div_pow]
  simp only [List.get?_cons_zero, List.get?_cons_succ, Option.getD_some]
  omega

theorem readBytes_zero (src : List Nat) :
    WriteLogReader.read_bytes src 0 = .ok ([], src) := rfl

theorem readBytes_exact (src : List Nat) (len : Nat) (h0 : 0 < len)
    (hle : len ≤ src.length) :
    WriteLogReader.read_bytes src len = .ok (src.take len, src.drop len) := by
  unfold WriteLogReader.read_bytes WriteLogReader.read_bytes_go
  simp only [List.length_nil, Nat.sub_zero, List.length_take, Nat.min_eq_left hle,
    List.nil_append]
  rw [if_neg (by omega), if_neg (by omega)]

theorem readBytes_short (src : List Nat) (len : Nat) (h0 : 0 < len)
    (hlt : src.length < len) :
    WriteLogReader.read_bytes src len = .error "Could not read enough data" := by
  obtain ⟨m, rfl⟩ : ∃ m, len = m + 1 := ⟨len - 1, by omega⟩
  unfold WriteLogReader.read_bytes WriteLogReader.read_bytes_go
  simp only [List.length_nil, Nat.sub_zero, List.nil_append,
    List.take_of_length_le (le_of_lt hlt), List.drop_eq_nil_of_le (le_of_lt hlt)]
  by_cases hz : src.length = 0
  · simp [hz]
  · obtain ⟨m2, rfl⟩ : ∃ m2, m = m2 + 1 := ⟨m - 1, by omega⟩
    rw [if_neg hz, if_pos (by omega)]
    unfold WriteLogReader.read_bytes_go
    simp

theorem readVec_encodeEntry (s rest : List Nat) (h : s.length < 2 ^ 32) :
    WriteLogReader.read_vec (encodeEntry s ++ rest) = .ok (s, rest) := by
  have h4 : (encode_u32 (s.length % 2 ^ 32)).length = 4 := rfl
  have htake :
      WriteLogReader.read_bytes (encode_u32 (s.length % 2 ^ 32) ++ s ++ rest) 4
        = .ok (encode_u32 (s.length % 2 ^ 32), s ++ rest) := by
    rw [List.append_assoc]
    have he := readBytes_exact (encode_u32 (s.length % 2 ^ 32) ++ (s ++ rest)) 4
      (by omega) (by simp [encode_u32])
    rw [he, ← h4, List.take_left, List.drop_left]
  have hdec : decode_u32 (encode_u32 (s.length % 2 ^ 32)) = s.length := by
    rw [decode_encode_u32 _ (Nat.mod_lt _ (by norm_num)), Nat.mod_eq_of_lt h]
  have hpay : WriteLogReader.read_bytes (s ++ rest) s.length = .ok (s, rest) := by
    by_cases hz : s.length = 0
    · rw [List.length_eq_zero.mp hz] at *
      simpa using readBytes_zero rest
    · have he := readBytes_exact (s ++ rest) s.length (by omega) (by simp)
      rw [he, List.take_left, List.drop_left]
  unfold WriteLogReader.read_vec encodeEntry
  simp only [htake, hdec, hpay]

theorem readVec_nil :
    WriteLogReader.read_vec ([] : List Nat) = .error "Could not read enough data" := by
  unfold WriteLogReader.read_vec
  rw [readBytes_short [] 4 (by omega) (by simp)]

theorem readVecAllGo_stream (ss : List (List Nat)) :
    ∀ fuel, (∀ s ∈ ss, s.length < 2 ^ 32) → ss.length + 1 ≤ fuel →
      readVecAllGo fuel ((ss.map encodeEntry).join) = (ss, []) := by
  induction ss with
  | nil =>
    intro fuel _ hf
    obtain ⟨m, rfl⟩ : ∃ m, fuel = m + 1 := ⟨fuel - 1, by omega⟩
    simp [readVecAllGo, readVec_nil]
  | cons s tail ih =>
    intro fuel hlen hf
    obtain ⟨m, rfl⟩ : ∃ m, fuel = m + 1 := ⟨fuel - 1, by omega⟩
    have hs : s.length < 2 ^ 32 := hlen s (by simp)
    have hjoin : (List.map encodeEntry (s :: tail)).join
        = encodeEntry s ++ (List.map encodeEntry tail).join := by
      simp
    rw [hjoin, readVecAllGo, readVec_encodeEntry _ _ hs]
    have hrec := ih m (fun x hx => hlen x (by simp [hx])) (by simp at hf ⊢; omega)
    simp [hrec]

theorem length_le_streamSum (ss : List (List Nat)) :
    ss.length ≤ (ss.map (fun s => 4 + s.length)).sum := by
  induction ss with
  | nil => simp
  | cons s tail ih =>
    simp only [List.map_cons, List.sum_cons, List.length_cons]
    omega

theorem length_wlStream (ss : List (List Nat)) :
    ((ss.map encodeEntry).join).length = (ss.map (fun s => 4 + s.length)).sum := by
  induction ss with
  | nil => simp
  | cons s tail ih =>
    simp [ih, encodeEntry, encode_u32]
    omega

theorem read_vec_all_stream (ss : List (List Nat))
    (hlen : ∀ s ∈ ss, s.length < 2 ^ 32) :
    read_vec_all ((ss.map encodeEntry).join) = (ss, []) := by
  unfold read_vec_all
  apply readVecAllGo_stream ss _ hlen
  rw [length_wlStream]
  have := length_le_streamSum ss
  omega

theorem writeAll_spec (ss : List (List Nat)) :
    ∀ w : WriteLogWriter (List Nat),
      w.current_length + (ss.map (fun s => 4 + s.length)).sum < 2 ^ 64 →
      w.records_written + ss.length < 2 ^ 32 →
      ss.foldl (fun w s => (WriteLogWriter.write vecSink w s).1) w =
        { dest := w.dest ++ (ss.map encodeEntry).join,
          current_length := w.current_length + (ss.map (fun s => 4 + s.length)).sum,
          records_written := w.records_written + ss.length } := by
  induction ss with
  | nil => intro w _ _; simp
  | cons s tail ih =>
    intro w h64 h32
    simp only [List.map_cons, List.sum_cons, List.length_cons] at h64 h32 ⊢
    have hm1 : (4 + s.length) % 2 ^ 64 = 4 + s.length := by
      apply Nat.mod_eq_of_lt
      omega
    have hm2 : (w.current_length + (4 + s.length) % 2 ^ 64) % 2 ^ 64
        = w.current_length + (4 + s.length) := by
      rw [hm1]
      apply Nat.mod_eq_of_lt
      omega
    have hm3 : (w.records_written + 1) % 2 ^ 32 = w.records_written + 1 := by
      apply Nat.mod_eq_of_lt
      omega
    have hstep : (WriteLogWriter.write vecSink w s).1 =
        { dest := w.dest ++ encodeEntry s,
          current_length := w.current_length + (4 + s.length),
          records_written := w.records_written + 1 } := by
      unfold WriteLogWriter.write vecSink
      simp only [hm2, hm3, encodeEntry, List.append_assoc]
    have h1 : (WriteLogWriter.mk (w.dest ++ encodeEntry s)
        (w.current_length + (4 + s.length)) (w.records_written + 1)).current_length
        + (List.map (fun s => 4 + s.length) tail).sum < 2 ^ 64 := by
      show w.current_length + (4 + s.length)
        + (List.map (fun s => 4 + s.length) tail).sum < 2 ^ 64
      omega
    have h2 : (WriteLogWriter.mk (w.dest ++ encodeEntry s)
        (w.current_length + (4 + s.length)) (w.records_written + 1)).records_written
        + tail.length < 2 ^ 32 := by
      show w.records_written + 1 + tail.length < 2 ^ 32
      omega
    rw [List.foldl_cons, hstep, ih _ h1 h2]
    congr 1
    · show w.dest ++ encodeEntry s ++ (List.map encodeEntry tail).join = _
      simp [List.append_assoc]
    · show w.current_length + (4 + s.length)
        + (List.map (fun s => 4 + s.length) tail).sum = _
      omega
    · show w.records_written + 1 + tail.length = _
      omega

/-! ## Claim theorems: WriteLog codec -/

/-- C7: `WriteLogWriter::write` returns an error exactly when one of its two
sub-writes (length prefix, payload) fails; in that case the `get_stats`
counters are unchanged; when both sub-writes succeed the counters increase by
exactly `(4 + buf.length, 1)` (no-overflow side conditions make "increase by
exactly" meaningful for the `u64`/`u32` counters). -/
theorem C7_write_error_and_counters {σ : Type _} (wr : σ → List Nat → σ × Option Nat)
    (w : WriteLogWriter σ) (buf : List Nat)
    (h64 : w.current_length + 4 + buf.length < 2 ^ 64)
    (h32 : w.records_written + 1 < 2 ^ 32) :
    ((WriteLogWriter.write wr w buf).2 = none ↔
      (wr w.dest (encode_u32 (buf.length % 2 ^ 32))).2 = none ∨
      (wr (wr w.dest (encode_u32 (buf.length % 2 ^ 32))).1 buf).2 = none) ∧
    ((WriteLogWriter.write wr w buf).2 = none →
      (WriteLogWriter.write wr w buf).1.get_stats = w.get_stats) ∧
    ((WriteLogWriter.write wr w buf).2 ≠ none →
      (WriteLogWriter.write wr w buf).1.get_stats
        = (w.current_length + (4 + buf.length), w.records_written + 1)) := by
  have hm1 : (4 + buf.length) % 2 ^ 64 = 4 + buf.length :=
    Nat.mod_eq_of_lt (by omega)
  have hm2 : (w.current_length + (4 + buf.length) % 2 ^ 64) % 2 ^ 64
      = w.current_length + (4 + buf.length) := by
    rw [hm1]
    exact Nat.mod_eq_of_lt (by omega)
  have hm3 : (w.records_written + 1) % 2 ^ 32 = w.records_written + 1 :=
    Nat.mod_eq_of_lt (by omega)
  unfold WriteLogWriter.write
  cases h1 : (wr w.dest (encode_u32 (buf.length % 2 ^ 32))).2 with
  | none =>
    simp only [h1]
    simp [WriteLogWriter.get_stats]
  | some n1 =>
    cases h2 : (wr (wr w.dest (encode_u32 (buf.length % 2 ^ 32))).1 buf).2 with
    | none =>
      simp only [h1, h2]
      simp [WriteLogWriter.get_stats]
    | some n2 =>
      simp only [h1, h2, hm2, hm3]
      simp [WriteLogWriter.get_stats]

/-- Witness for C7 at a concrete sink, writer and buffer. -/
theorem C7_witness :
    (WriteLogWriter.write vecSink freshWriter (str "abc")).2 ≠ none ∧
    (WriteLogWriter.write vecSink freshWriter (str "abc")).1.get_stats
      = (freshWriter.current_length + (4 + (str "abc").length),
         freshWriter.records_written + 1) := by
  have h := C7_write_error_and_counters vecSink freshWriter (str "abc")
    (by decide) (by decide)
  have hne : (WriteLogWriter.write vecSink freshWriter (str "abc")).2 ≠ none := by decide
  exact ⟨hne, h.2.2 hne⟩

/-- C10: for a buffer of length at least `2^32` on the always-succeeding
in-memory sink, `WriteLogWriter::write` reports no error, writes a length
prefix that decodes to `buf.length % 2^32` (the `as u32` cast) rather than
the true length, and still advances the byte counter by the true length plus
4 — the stream's prefix disagrees with its payload length. -/
theorem C10_write_big_buffer (w : WriteLogWriter (List Nat)) (buf : List Nat)
    (hbig : 2 ^ 32 ≤ buf.length)
    (h64 : w.current_length + 4 + buf.length < 2 ^ 64) :
    (WriteLogWriter.write vecSink w buf).2 ≠ none ∧
    (WriteLogWriter.write vecSink w buf).1.dest
      = w.dest ++ encode_u32 (buf.length % 2 ^ 32) ++ buf ∧
    (WriteLogWriter.write vecSink w buf).1.current_length
      = w.current_length + 4 + buf.length ∧
    decode_u32 (encode_u32 (buf.length % 2 ^ 32)) = buf.length % 2 ^ 32 ∧
    decode_u32 (encode_u32 (buf.length % 2 ^ 32)) ≠ buf.length := by
  have hm1 : (4 + buf.length) % 2 ^ 64 = 4 + buf.length :=
    Nat.mod_eq_of_lt (by omega)
  have hm2 : (w.current_length + (4 + buf.length) % 2 ^ 64) % 2 ^ 64
      = w.current_length + (4 + buf.length) := by
    rw [hm1]
    exact Nat.mod_eq_of_lt (by omega)
  have hdec : decode_u32 (encode_u32 (buf.length % 2 ^ 32)) = buf.length % 2 ^ 32 :=
    decode_encode_u32 _ (Nat.mod_lt _ (by norm_num))
  refine ⟨?_, ?_, ?_, hdec, ?_⟩
  · unfold WriteLogWriter.write vecSink
    simp
  · unfold WriteLogWriter.write vecSink
    simp [List.append_assoc]
  · unfold WriteLogWriter.write vecSink
    simp [hm2]
    omega
  · rw [hdec]
    have : buf.length % 2 ^ 32 < 2 ^ 32 := Nat.mod_lt _ (by norm_num)
    omega

/-- Witness for C10 at a concrete `2^32`-byte buffer. -/
theorem C10_witness :
    (WriteLogWriter.write vecSink freshWriter (List.replicate (2 ^ 32) 0)).2 ≠ none ∧
    (WriteLogWriter.write vecSink freshWriter (List.replicate (2 ^ 32) 0)).1.current_length
      = freshWriter.current_length + 4 + (List.replicate (2 ^ 32) 0).length ∧
    decode_u32 (encode_u32 ((List.replicate (2 ^ 32) 0).length % 2 ^ 32))
      ≠ (List.replicate (2 ^ 32) 0).length := by
  have h := C10_write_big_buffer freshWriter (List.replicate (2 ^ 32) 0)
    (by rw [List.length_replicate]) (by rw [List.length_replicate]; decide)
  exact ⟨h.1, h.2.2.1, h.2.2.2.2⟩

/-- C2, amended: writing byte strings `s₁…sₙ` (each shorter than `2^32`, with
totals inside the counters' widths) through `WriteLogWriter::write` and then
draining the stream with `WriteLogReader::read_vec` yields exactly `s₁…sₙ` in
order with nothing left over; reading the leftover then fails; and
`get_stats` reports `(Σ (4 + |sᵢ|), n)`. -/
theorem C2_writelog_roundtrip (ss : List (List Nat))
    (hlen : ∀ s ∈ ss, s.length < 2 ^ 32)
    (h64 : (ss.map (fun s => 4 + s.length)).sum < 2 ^ 64)
    (h32 : ss.length < 2 ^ 32) :
    read_vec_all (writeAll ss).dest = (ss, []) ∧
    WriteLogReader.read_vec (read_vec_all (writeAll ss).dest).2
      = .error "Could not read enough data" ∧
    (writeAll ss).get_stats = ((ss.map (fun s => 4 + s.length)).sum, ss.length) := by
  have hw : writeAll ss =
      { dest := [] ++ (ss.map encodeEntry).join,
        current_length := 0 + (ss.map (fun s => 4 + s.length)).sum,
        records_written := 0 + ss.length } :=
    writeAll_spec ss freshWriter (by simpa [freshWriter] using h64)
      (by simpa [freshWriter] using h32)
  have hdest : (writeAll ss).dest = (ss.map encodeEntry).join := by
    rw [hw]
    exact List.nil_append _
  have hread : read_vec_all (writeAll ss).dest = (ss, []) := by
    rw [hdest]
    exact read_vec_all_stream ss hlen
  refine ⟨hread, ?_, ?_⟩
  · rw [hread]
    exact readVec_nil
  · rw [hw]
    simp [WriteLogWriter.get_stats]

/-- Witness for C2 at the byte strings "abc", "def" of scenario S3: round
trip in order, writer stats `(14, 2)`. -/
theorem C2_roundtrip_witness :
    read_vec_all (writeAll [str "abc", str "def"]).dest
      = ([str "abc", str "def"], []) ∧
    (writeAll [str "abc", str "def"]).get_stats = (14, 2) := by
  have h := C2_writelog_roundtrip [str "abc", str "def"]
    (by decide) (by decide) (by decide)
  refine ⟨h.1, ?_⟩
  rw [h.2.2]
  decide

/-- One successful `read_vec` step of the reader iteration. -/
theorem readVecAllGo_ok (fuel : Nat) (src v rest : List Nat)
    (h : WriteLogReader.read_vec src = .ok (v, rest)) :
    readVecAllGo (fuel + 1) src
      = (v :: (readVecAllGo fuel rest).1, (readVecAllGo fuel rest).2) := by
  conv_lhs => unfold readVecAllGo
  rw [h]

/-- On the in-memory sink a single `write` always succeeds and appends the
4-byte prefix of `buf.len() as u32` followed by the payload. -/
theorem write_vecSink_dest (w : WriteLogWriter (List Nat)) (buf : List Nat) :
    (WriteLogWriter.write vecSink w buf).1.dest
      = w.dest ++ encode_u32 (buf.length % 2 ^ 32) ++ buf := by
  unfold WriteLogWriter.write vecSink
  simp [List.append_assoc]

/-- C2 counterexample: for an entry of length `2^32` the length prefix wraps
to 0 (`as u32`), so reading the stream back does not yield the written
sequence — the universally quantified round-trip claim fails. -/
theorem C2_counterexample :
    read_vec_all (writeAll [List.replicate (2 ^ 32) 0]).dest
      ≠ ([List.replicate (2 ^ 32) 0], []) := by
  have hfold : writeAll [List.replicate (2 ^ 32) 0]
      = (WriteLogWriter.write vecSink freshWriter (List.replicate (2 ^ 32) 0)).1 := rfl
  have hdest : (writeAll [List.replicate (2 ^ 32) 0]).dest
      = encode_u32 0 ++ List.replicate (2 ^ 32) 0 := by
    rw [hfold, write_vecSink_dest, List.length_replicate, Nat.mod_self]
    rw [show freshWriter.dest = ([] : List Nat) from rfl, List.nil_append]
  have h4 : (4:Nat) ≤ (encode_u32 0 ++ List.replicate (2 ^ 32) 0).length := by
    rw [List.length_append, List.length_replicate]
    decide
  have htk : WriteLogReader.read_bytes (encode_u32 0 ++ List.replicate (2 ^ 32) 0) 4
      = .ok (encode_u32 0, List.replicate (2 ^ 32) 0) := by
    rw [readBytes_exact _ 4 (by omega) h4]
    have e1 : (encode_u32 0 ++ List.replicate (2 ^ 32) 0).take 4 = encode_u32 0 := by
      show (encode_u32 0 ++ List.replicate (2 ^ 32) 0).take (encode_u32 0).length
        = encode_u32 0
      exact List.take_left _ _
    have e2 : (encode_u32 0 ++ List.replicate (2 ^ 32) 0).drop 4
        = List.replicate (2 ^ 32) 0 := by
      show (encode_u32 0 ++ List.replicate (2 ^ 32) 0).drop (encode_u32 0).length = _
      exact List.drop_left _ _
    rw [e1, e2]
  have hdec0 : decode_u32 (encode_u32 0) = 0 := rfl
  have hvec : WriteLogReader.read_vec (writeAll [List.replicate (2 ^ 32) 0]).dest
      = .ok ([], List.replicate (2 ^ 32) 0) := by
    rw [hdest]
    unfold WriteLogReader.read_vec
    simp only [htk, hdec0, readBytes_zero]
  intro hcontra
  have hgo : read_vec_all (writeAll [List.replicate (2 ^ 32) 0]).dest
      = ([] :: (readVecAllGo ((writeAll [List.replicate (2 ^ 32) 0]).dest.length)
            (List.replicate (2 ^ 32) 0)).1,
         (readVecAllGo ((writeAll [List.replicate (2 ^ 32) 0]).dest.length)
            (List.replicate (2 ^ 32) 0)).2) := by
    unfold read_vec_all
    rw [readVecAllGo_ok _ _ _ _ hvec]
  rw [hgo] at hcontra
  have hhead : some ([] : List Nat) = some (List.replicate (2 ^ 32) 0) :=
    congrArg (fun p => p.1.head?) hcontra
  have hx : ([] : List Nat) = List.replicate (2 ^ 32) 0 := Option.some.inj hhead
  have hlen : (0:Nat) = 2 ^ 32 := by
    have hq := congrArg List.length hx
    rw [List.length_replicate] at hq
    exact hq
  exact absurd hlen (by decide)

/-- C8, amended: `read_bytes` fills exactly `len` bytes when the source has
them, fails with "Could not read enough data" when the source is exhausted
first, and returns an empty `Ok` for `len = 0`; the reader's record iterator
yields one payload per complete entry, ends whenever `read_vec` fails (the
first failing read, e.g. a truncated or exhausted source), and also ends at an
entry whose payload is not valid UTF-8 (`String::from_utf8` failure). -/
theorem C8_read_bytes_and_iterator :
    (∀ (src : List Nat) (len : Nat), 0 < len → len ≤ src.length →
      WriteLogReader.read_bytes src len = .ok (src.take len, src.drop len)) ∧
    (∀ (src : List Nat) (len : Nat), 0 < len → src.length < len →
      WriteLogReader.read_bytes src len = .error "Could not read enough data") ∧
    (∀ src : List Nat, WriteLogReader.read_bytes src 0 = .ok ([], src)) ∧
    (∀ s rest : List Nat, s.length < 2 ^ 32 → utf8Valid s = true →
      WriteLogReader.next (encodeEntry s ++ rest) = some (s, rest)) ∧
    (∀ s rest : List Nat, s.length < 2 ^ 32 → utf8Valid s = false →
      WriteLogReader.next (encodeEntry s ++ rest) = none) ∧
    (∀ (src : List Nat) (e : String), WriteLogReader.read_vec src = .error e →
      WriteLogReader.next src = none) := by
  refine ⟨readBytes_exact, readBytes_short, readBytes_zero, ?_, ?_, ?_⟩
  · intro s rest hlen hval
    unfold WriteLogReader.next
    rw [readVec_encodeEntry s rest hlen]
    simp [hval]
  · intro s rest hlen hval
    unfold WriteLogReader.next
    rw [readVec_encodeEntry s rest hlen]
    simp [hval]
  · intro src e herr
    unfold WriteLogReader.next
    rw [herr]

/-- Witness for C8 at concrete sources and payloads. -/
theorem C8_witness :
    WriteLogReader.read_bytes [1, 2, 3] 2 = .ok ([1, 2], [3]) ∧
    WriteLogReader.read_bytes [1, 2, 3] 5 = .error "Could not read enough data" ∧
    WriteLogReader.read_bytes [1, 2, 3] 0 = .ok ([], [1, 2, 3]) ∧
    WriteLogReader.next (encodeEntry (str "abc") ++ []) = some (str "abc", []) ∧
    WriteLogReader.next (encodeEntry [255] ++ []) = none ∧
    (WriteLogReader.read_vec [0, 0, 0] = .error "Could not read enough data" ∧
      WriteLogReader.next [0, 0, 0] = none) := by
  have h := C8_read_bytes_and_iterator
  refine ⟨?_, h.2.1 [1, 2, 3] 5 (by decide) (by decide), h.2.2.1 [1, 2, 3], ?_, ?_, ?_, ?_⟩
  · have h1 := h.1 [1, 2, 3] 2 (by decide) (by decide)
    rw [h1]
    rfl
  · exact h.2.2.2.1 (str "abc") [] (by decide) (by decide)
  · exact h.2.2.2.2.1 [255] [] (by decide) (by decide)
  · rfl
  · exact h.2.2.2.2.2 [0, 0, 0] "Could not read enough data" rfl

/-- C8 counterexample: on the stream holding the single complete entry
`[255]`, `read_vec` succeeds, yet the iterator ends because the payload is
not valid UTF-8 — so the iterator does not end "exactly at the first failing
read, never for any other reason". -/
theorem C8_counterexample :
    WriteLogReader.read_vec [0, 0, 0, 1, 255] = .ok ([255], []) ∧
    WriteLogReader.next [0, 0, 0, 1, 255] = none := by
  exact ⟨rfl, by decide⟩

/-! ## Claim theorems: comparators -/

theorem sane_char_compare_self (a : Nat) : sane_char_compare a a = .eq := by
  simp [sane_char_compare, natCmp]

theorem sane_string_compare_append_left (p x y : List Nat) :
    sane_string_compare (p ++ x) (p ++ y) = sane_string_compare x y := by
  induction p with
  | nil => rfl
  | cons c cs ih =>
    unfold sane_string_compare at *
    simp only [List.cons_append, strCmpWith, sane_char_compare_self]
    exact ih

/-- C9, amended: under `sane_compare`, when two strings tie at a character
that is the same letter in different case, the *upper-case* code point (the
numerically smaller one) sorts greater; in particular "a" < "B" and
"b" < "B". -/
theorem C9_sane_compare_upper_greater (p s1 s2 : List Nat) (c d : Nat)
    (hlow : lowerChar c = lowerChar d) (hlt : c < d) :
    sane_string_compare (p ++ c :: s1) (p ++ d :: s2) = .gt ∧
    sane_string_compare (p ++ d :: s2) (p ++ c :: s1) = .lt ∧
    sane_string_compare (str "a") (str "B") = .lt ∧
    sane_string_compare (str "b") (str "B") = .lt := by
  have hchar1 : sane_char_compare c d = .gt := by
    unfold sane_char_compare
    simp [hlow, natCmp, hlt]
  have hchar2 : sane_char_compare d c = .lt := by
    unfold sane_char_compare
    simp [hlow, natCmp, hlt, Nat.not_lt_of_lt hlt, Nat.ne_of_gt hlt]
  refine ⟨?_, ?_, by decide, by decide⟩
  · rw [sane_string_compare_append_left]
    unfold sane_string_compare
    simp [strCmpWith, hchar1]
  · rw [sane_string_compare_append_left]
    unfold sane_string_compare
    simp [strCmpWith, hchar2]

/-- Witness for C9 at the concrete characters 'B' (66) and 'b' (98). -/
theorem C9_witness :
    sane_string_compare ([] ++ 66 :: []) ([] ++ 98 :: []) = .gt ∧
    sane_string_compare ([] ++ 98 :: []) ([] ++ 66 :: []) = .lt ∧
    sane_string_compare (str "a") (str "B") = .lt ∧
    sane_string_compare (str "b") (str "B") = .lt :=
  C9_sane_compare_upper_greater [] [] [] 66 98 (by decide) (by decide)

/-- C9 counterexample: the claim's example "B" < "b" is false — under
`sane_compare` the upper-case "B" sorts *greater* than "b". -/
theorem C9_counterexample :
    sane_string_compare (str "B") (str "b") ≠ .lt ∧
    sane_string_compare (str "B") (str "b") = .gt := by
  exact ⟨by decide, by decide⟩

/-! ## Claim theorems: intermediate file names and order -/

/-- C4: under the default parameters, the name `MapPartition::setup_output`
writes ("mapout_<shard>.<reducer>", hard-coded prefix, `src/map.rs` lines
93–105) differs from the name `open_reduce_inputs` reads
("<map_output_location><chunk>.<reducer>", `src/controller.rs` lines 34–47)
for the same (chunk, reducer) pair — evaluated here at chunk 0, reducer 0. -/
theorem C4_intermediate_name_mismatch :
    MapPartition.setup_output_name MRParameters.new 0 = "mapout_0.0" ∧
    open_reduce_inputs_name MRParameters.new 0 0 = "map_intermediate_0.0" ∧
    MapPartition.setup_output_name MRParameters.new 0
      ≠ open_reduce_inputs_name MRParameters.new 0 0 := by
  exact ⟨rfl, rfl, by decide⟩

/-- C5: evaluating `MapPartition`'s sorted-output insertion and
`write_output` (`src/map.rs`) at the two emitted records `("Z","1")`,
`("a","2")` with one reducer: the single intermediate file holds the entries
`Z, 1, a, 2` (keys in Rust `String` byte order, `"Z" < "a"`), yet under the
case-insensitive dictionary order `"Z"` sorts *after* `"a"` — the file's key
sequence is decreasing under `dict_string_compare`, contradicting the claimed
sort order. -/
theorem C5_intermediate_not_dict_sorted :
    MapPartition.write_output 1 (fun _ _ => 0)
      (MapPartition.insert_result rustStrCmp []
        [⟨str "Z", str "1"⟩, ⟨str "a", str "2"⟩])
      = [[str "Z", str "1", str "a", str "2"]] ∧
    dict_string_compare (str "Z") (str "a") = .gt := by
  exact ⟨by decide, by decide⟩

/-! ## Lemmas about the ordered-map model -/

theorem btFind_btInsert {β : Type _} {cmp : List Nat → List Nat → Ordering}
    (h : CmpLaws cmp) (ki k : List Nat) (v : β) (m : List (List Nat × β)) :
    btFind cmp k (btInsert cmp ki v m)
      = if cmp ki k = .eq then some v else btFind cmp k m := by
  induction m with
  | nil =>
    simp only [btInsert, btFind]
    by_cases hq : cmp k ki = .eq
    · rw [if_pos hq, if_pos (h.eq_symm hq)]
    · rw [if_neg hq, if_neg (fun hc => hq (h.eq_symm hc))]
  | cons e t ih =>
    obtain ⟨k2, v2⟩ := e
    simp only [btInsert]
    cases hik : cmp ki k2 with
    | lt =>
      simp only [btFind]
      by_cases hq : cmp k ki = .eq
      · rw [if_pos hq, if_pos (h.eq_symm hq)]
      · rw [if_neg hq, if_neg (fun hc => hq (h.eq_symm hc))]
    | eq =>
      simp only [btFind]
      by_cases hq : cmp k k2 = .eq
      · have hik2 : cmp ki k = .eq := h.eq_trans hik (h.eq_symm hq)
        rw [if_pos hq, if_pos hik2]
      · have hik2 : ¬ cmp ki k = .eq := by
          intro hc
          exact hq (h.eq_trans (h.eq_symm hc) (h.eq_trans hc
            (h.eq_symm (h.eq_trans (h.eq_symm hik) hc))))
        rw [if_neg hq, if_neg hik2, if_neg hq]
    | gt =>
      simp only [btFind]
      by_cases hq : cmp k k2 = .eq
      · have hne : ¬ cmp ki k = .eq := by
          intro hc
          have : cmp ki k2 = .eq := h.eq_trans hc hq
          simp [hik] at this
        rw [if_pos hq, if_neg hne, if_pos hq]
      · rw [if_neg hq, ih]
        by_cases hc : cmp ki k = .eq
        · rw [if_pos hc, if_pos hc]
        · rw [if_neg hc, if_neg hc, if_neg hq]

theorem btInsert_keys_subset {β : Type _} {cmp : List Nat → List Nat → Ordering}
    (ki : List Nat) (v : β) (m : List (List Nat × β)) :
    ∀ e ∈ btInsert cmp ki v m, e.1 = ki ∨ e.1 ∈ m.map Prod.fst := by
  induction m with
  | nil =>
    intro e he
    simp [btInsert] at he
    simp [he]
  | cons e2 t ih =>
    obtain ⟨k2, v2⟩ := e2
    intro e he
    simp only [btInsert] at he
    cases hik : cmp ki k2 with
    | lt =>
      rw [hik] at he
      simp only [List.mem_cons] at he
      rcases he with rfl | rfl | hmem
      · simp
      · simp
      · right
        simp only [List.map_cons, List.mem_cons]
        right
        exact List.mem_map_of_mem Prod.fst hmem
    | eq =>
      rw [hik] at he
      simp only [List.mem_cons] at he
      rcases he with rfl | hmem
      · simp
      · right
        simp only [List.map_cons, List.mem_cons]
        right
        exact List.mem_map_of_mem Prod.fst hmem
    | gt =>
      rw [hik] at he
      simp only [List.mem_cons] at he
      rcases he with rfl | hmem
      · simp
      · rcases ih e hmem with h1 | h2
        · exact Or.inl h1
        · right
          simp only [List.map_cons, List.mem_cons]
          exact Or.inr h2

theorem btInsert_pairwise {β : Type _} {cmp : List Nat → List Nat → Ordering}
    (h : CmpLaws cmp) (ki : List Nat) (v : β) (m : List (List Nat × β))
    (hm : m.Pairwise (fun a b => cmp a.1 b.1 = .lt)) :
    (btInsert cmp ki v m).Pairwise (fun a b => cmp a.1 b.1 = .lt) := by
  induction m with
  | nil => simp [btInsert]
  | cons e2 t ih =>
    obtain ⟨k2, v2⟩ := e2
    rw [List.pairwise_cons] at hm
    obtain ⟨hk2, ht⟩ := hm
    simp only [btInsert]
    cases hik : cmp ki k2 with
    | lt =>
      rw [List.pairwise_cons]
      constructor
      · intro e he
        rcases List.mem_cons.mp he with rfl | hmem
        · exact hik
        · exact h.lt_trans hik (hk2 e hmem)
      · rw [List.pairwise_cons]
        exact ⟨hk2, ht⟩
    | eq =>
      rw [List.pairwise_cons]
      exact ⟨hk2, ht⟩
    | gt =>
      rw [List.pairwise_cons]
      constructor
      · intro e he
        rcases btInsert_keys_subset ki v t e he with h1 | h2
        · rw [h1]
          exact h.lt_of_gt hik
        · simp only [List.mem_map] at h2
          obtain ⟨e2, he2, hfst⟩ := h2
          have hlt := hk2 e2 he2
          rw [hfst] at hlt
          exact hlt
      · exact ih ht

/-! ## Claim theorem: map-side sorted input -/

/-- C6: after `MapPartition::sort_input`, the sorted input map holds one
entry per key distinct under the map's key ordering (its keys are strictly
increasing, hence pairwise non-equal under the comparator), and looking up
any key returns the value of the *last* record in the chunk whose key is
comparator-equal to it (insert semantics: the later value replaces the
earlier).  The comparator is `rustStrCmp` for `src/map.rs` (plain `String`
keys) and `dict_string_compare` for `src/phases/map.rs`
(`DictComparableString` keys). -/
theorem C6_sort_input_last_wins {cmp : List Nat → List Nat → Ordering}
    (h : CmpLaws cmp) (input : List Record) :
    (MapPartition.sort_input cmp input).Pairwise (fun a b => cmp a.1 b.1 = .lt) ∧
    ∀ k, btFind cmp k (MapPartition.sort_input cmp input)
      = ((input.filter (fun r => cmp r.key k == .eq)).map Record.value).getLast? := by
  unfold MapPartition.sort_input
  induction input using List.reverseRecOn with
  | nil => simp [btFind]
  | append_singleton xs x ih =>
    rw [List.foldl_append, List.foldl_cons, List.foldl_nil]
    constructor
    · exact btInsert_pairwise h x.key x.value _ ih.1
    · intro k
      rw [btFind_btInsert h x.key k x.value _, List.filter_append, List.map_append]
      by_cases hc : cmp x.key k = .eq
      · rw [if_pos hc]
        have hf : List.filter (fun r => cmp r.key k == .eq) [x] = [x] := by
          simp [List.filter, hc]
          rfl
        rw [hf]
        simp [List.getLast?_concat]
      · rw [if_neg hc]
        have hf : List.filter (fun r => cmp r.key k == .eq) [x] = [] := by
          simp only [List.filter]
          have hb : (cmp x.key k == Ordering.eq) = false := by
            cases hcc : cmp x.key k with
            | lt => rfl
            | eq => exact absurd hcc hc
            | gt => rfl
          rw [hb]
        rw [hf]
        simp only [List.map_nil, List.append_nil]
        exact ih.2 k

/-- Witness for C6 with the case-insensitive dictionary comparator: the keys
"abb" and "Abb" are comparator-equal, so the map collapses them and keeps the
later value "112". -/
theorem C6_witness :
    (MapPartition.sort_input dict_string_compare
        [⟨str "abb", str "111"⟩, ⟨str "Abb", str "112"⟩]).Pairwise
      (fun a b => dict_string_compare a.1 b.1 = .lt) ∧
    btFind dict_string_compare (str "ABB")
        (MapPartition.sort_input dict_string_compare
          [⟨str "abb", str "111"⟩, ⟨str "Abb", str "112"⟩])
      = (([⟨str "abb", str "111"⟩, ⟨str "Abb", str "112"⟩].filter
          (fun r => dict_string_compare r.key (str "ABB") == .eq)).map
            Record.value).getLast? ∧
    btFind dict_string_compare (str "ABB")
        (MapPartition.sort_input dict_string_compare
          [⟨str "abb", str "111"⟩, ⟨str "Abb", str "112"⟩])
      = some (str "112") := by
  have h := C6_sort_input_last_wins dict_string_compare_laws
    [⟨str "abb", str "111"⟩, ⟨str "Abb", str "112"⟩]
  refine ⟨h.1, h.2 (str "ABB"), ?_⟩
  rw [h.2 (str "ABB")]
  decide

/-! ## Lemmas about the group-by-key adaptor -/

theorem takeGroup_spec (params : MRParameters) (key : List Nat) (rs : List Record) :
    RecordsToMultiRecords.takeGroup params key rs
      = ((rs.takeWhile (fun r => groupKey params r.key == key)).map Record.value,
         rs.dropWhile (fun r => groupKey params r.key == key)) := by
  induction rs with
  | nil => rfl
  | cons r rest ih =>
    simp only [RecordsToMultiRecords.takeGroup]
    by_cases hc : groupKey params r.key = key
    · rw [if_neg (fun hne => hne hc), ih]
      have hb : (groupKey params r.key == key) = true := by simp [hc]
      simp [List.takeWhile_cons, List.dropWhile_cons, hb]
    · rw [if_pos hc]
      have hb : (groupKey params r.key == key) = false := by simp [hc]
      simp [List.takeWhile_cons, List.dropWhile_cons, hb]

theorem grpAdj_dropWhile (k : List Nat) : ∀ (ks : List (List Nat)),
    grpAdj (k :: ks) = true →
    grpAdj (ks.dropWhile (fun x => x == k)) = true ∧
    k ∉ ks.dropWhile (fun x => x == k) := by
  intro ks
  induction ks with
  | nil =>
    intro _
    simp [grpAdj]
  | cons b t ih =>
    intro H
    rw [grpAdj, Bool.and_eq_true] at H
    obtain ⟨H1, H2⟩ := H
    by_cases hb : b = k
    · subst hb
      rw [List.dropWhile_cons]
      simp only [beq_self_eq_true, if_true]
      exact ih H2
    · rw [List.dropWhile_cons]
      have hbf : ((b == k) = false) := by simp [hb]
      simp only [hbf, if_false]
      refine ⟨H2, ?_⟩
      intro hmem
      rcases List.mem_cons.mp hmem with heq | hmem2
      · exact hb heq.symm
      · have hcont : (b :: t).contains k = true :=
          List.elem_iff.mpr (List.mem_cons_of_mem b hmem2)
        have hhead : ((b :: t).head? == some k) = true := by
          rw [Bool.or_eq_true] at H1
          rcases H1 with h1 | h2
          · rw [hcont] at h1
            simp at h1
          · exact h2
        simp only [List.head?, beq_iff_eq, Option.some.injEq] at hhead
        exact hb hhead

theorem drain_keys_subset (params : MRParameters) :
    ∀ (fuel : Nat) (rs : List Record) (m : MultiRecord),
      m ∈ RecordsToMultiRecords.drain params fuel rs →
      m.key ∈ rs.map (fun r => groupKey params r.key) := by
  intro fuel
  induction fuel with
  | zero =>
    intro rs m hm
    simp [RecordsToMultiRecords.drain] at hm
  | succ fuel ih =>
    intro rs m hm
    cases rs with
    | nil => simp [RecordsToMultiRecords.drain, RecordsToMultiRecords.next] at hm
    | cons r rest =>
      rw [RecordsToMultiRecords.drain] at hm
      simp only [RecordsToMultiRecords.next] at hm
      rcases List.mem_cons.mp hm with rfl | hmem
      · simp [groupKey]
      · have := ih _ m hmem
        rw [takeGroup_spec] at this
        simp only [List.map_cons, List.mem_cons]
        right
        have hsub : ((rest.dropWhile
            (fun r2 => groupKey params r2.key ==
              (if params.reduce_group_insensitive then asciiLower r.key
               else r.key))).map (fun r => groupKey params r.key)).Sublist
            (rest.map (fun r => groupKey params r.key)) :=
          (List.dropWhile_sublist _).map _
        exact hsub.mem this

theorem r2m_next_cons (params : MRParameters) (r : Record) (rest : List Record) :
    RecordsToMultiRecords.next params (r :: rest)
      = some ({ key := groupKey params r.key,
                values := r.value :: (rest.takeWhile
                  (fun r2 => groupKey params r2.key == groupKey params r.key)).map
                    Record.value },
              rest.dropWhile
                (fun r2 => groupKey params r2.key == groupKey params r.key)) := by
  simp only [RecordsToMultiRecords.next, takeGroup_spec, groupKey]

theorem drain_spec (params : MRParameters) :
    ∀ (fuel : Nat) (rs : List Record), rs.length ≤ fuel →
      grpAdj (rs.map (fun r => groupKey params r.key)) = true →
      ((RecordsToMultiRecords.drain params fuel rs).map MultiRecord.values).join
        = rs.map Record.value ∧
      ((RecordsToMultiRecords.drain params fuel rs).map MultiRecord.key).Pairwise
        (fun a b => a ≠ b) := by
  intro fuel
  induction fuel with
  | zero =>
    intro rs hlen _
    have hnil : rs = [] := List.length_eq_zero.mp (Nat.le_zero.mp hlen)
    subst hnil
    simp [RecordsToMultiRecords.drain]
  | succ fuel ih =>
    intro rs hlen hadj
    cases rs with
    | nil => simp [RecordsToMultiRecords.drain, RecordsToMultiRecords.next]
    | cons r rest =>
      rw [RecordsToMultiRecords.drain, r2m_next_cons]
      have hdm : (rest.dropWhile
            (fun r2 => groupKey params r2.key == groupKey params r.key)).map
            (fun r2 => groupKey params r2.key)
          = (rest.map (fun r2 => groupKey params r2.key)).dropWhile
            (fun x => x == groupKey params r.key) := by
        rw [List.dropWhile_map]
        rfl
      have hadj2 := hadj
      rw [List.map_cons] at hadj2
      have hgd := grpAdj_dropWhile (groupKey params r.key)
        (rest.map (fun r2 => groupKey params r2.key)) hadj2
      have hlen2 : (rest.dropWhile
          (fun r2 => groupKey params r2.key == groupKey params r.key)).length ≤ fuel := by
        have h1 := (@List.dropWhile_sublist _ rest
          (fun r2 => groupKey params r2.key == groupKey params r.key)).length_le
        simp only [List.length_cons] at hlen
        omega
      have hih := ih (rest.dropWhile
          (fun r2 => groupKey params r2.key == groupKey params r.key)) hlen2
        (by rw [hdm]; exact hgd.1)
      constructor
      · simp only [List.map_cons, List.join_cons, hih.1]
        show (r.value :: (rest.takeWhile
            (fun r2 => groupKey params r2.key == groupKey params r.key)).map
              Record.value) ++ (rest.dropWhile
            (fun r2 => groupKey params r2.key == groupKey params r.key)).map
              Record.value = _
        rw [List.cons_append, ← List.map_append, List.takeWhile_append_dropWhile]
      · rw [List.map_cons, List.pairwise_cons]
        constructor
        · intro k2 hk2
          simp only [List.mem_map] at hk2
          obtain ⟨m, hm, hkey⟩ := hk2
          have hmem := drain_keys_subset params fuel _ m hm
          rw [hdm] at hmem
          intro hcontra
          rw [← hcontra] at hkey
          rw [hkey] at hmem
          exact hgd.2 hmem
        · exact hih.2

/-- C3: for an input record sequence in which records with equal (possibly
case-lowered) group keys are adjacent, the `RecordsToMultiRecords` adaptor
emits MultiRecords whose value lists concatenate to the input value sequence
in order, and whose (possibly-lowered) keys are pairwise distinct. -/
theorem C3_group_by_values_and_keys (params : MRParameters) (rs : List Record)
    (hadj : grpAdj (rs.map (fun r => groupKey params r.key)) = true) :
    ((RecordsToMultiRecords.toList params rs).map MultiRecord.values).join
      = rs.map Record.value ∧
    ((RecordsToMultiRecords.toList params rs).map MultiRecord.key).Pairwise
      (fun a b => a ≠ b) :=
  drain_spec params rs.length rs (Nat.le_refl _) hadj

/-- Witness for C3 at the records of scenario S2 with case-insensitive
grouping and prealloc 2; also checks the concrete group sizes `[1,2,1,1,3]`. -/
theorem C3_witness :
    (((RecordsToMultiRecords.toList
        { reduce_group_insensitive := true, reduce_group_prealloc_size := 2 }
        [⟨str "aaa", str "def"⟩, ⟨str "abb", str "111"⟩, ⟨str "Abb", str "112"⟩,
         ⟨str "abbb", str "113"⟩, ⟨str "abc", str "xyz"⟩, ⟨str "xyz", str "___"⟩,
         ⟨str "xyz", str "__foo"⟩, ⟨str "xyz", str "---"⟩]).map
          MultiRecord.values).join
      = [⟨str "aaa", str "def"⟩, ⟨str "abb", str "111"⟩, ⟨str "Abb", str "112"⟩,
         ⟨str "abbb", str "113"⟩, ⟨str "abc", str "xyz"⟩, ⟨str "xyz", str "___"⟩,
         ⟨str "xyz", str "__foo"⟩, ⟨str "xyz", str "---"⟩].map Record.value) ∧
    (((RecordsToMultiRecords.toList
        { reduce_group_insensitive := true, reduce_group_prealloc_size := 2 }
        [⟨str "aaa", str "def"⟩, ⟨str "abb", str "111"⟩, ⟨str "Abb", str "112"⟩,
         ⟨str "abbb", str "113"⟩, ⟨str "abc", str "xyz"⟩, ⟨str "xyz", str "___"⟩,
         ⟨str "xyz", str "__foo"⟩, ⟨str "xyz", str "---"⟩]).map
          MultiRecord.key).Pairwise (fun a b => a ≠ b)) ∧
    ((RecordsToMultiRecords.toList
        { reduce_group_insensitive := true, reduce_group_prealloc_size := 2 }
        [⟨str "aaa", str "def"⟩, ⟨str "abb", str "111"⟩, ⟨str "Abb", str "112"⟩,
         ⟨str "abbb", str "113"⟩, ⟨str "abc", str "xyz"⟩, ⟨str "xyz", str "___"⟩,
         ⟨str "xyz", str "__foo"⟩, ⟨str "xyz", str "---"⟩]).map
          (fun m => m.values.length) = [1, 2, 1, 1, 3]) := by
  have h := C3_group_by_values_and_keys
    { reduce_group_insensitive := true, reduce_group_prealloc_size := 2 }
    [⟨str "aaa", str "def"⟩, ⟨str "abb", str "111"⟩, ⟨str "Abb", str "112"⟩,
     ⟨str "abbb", str "113"⟩, ⟨str "abc", str "xyz"⟩, ⟨str "xyz", str "___"⟩,
     ⟨str "xyz", str "__foo"⟩, ⟨str "xyz", str "---"⟩] (by decide)
  exact ⟨h.1, h.2, by decide⟩

theorem ShardMergeIterator.next_node {α : Type _} (cmp : α → α → Ordering)
    (l r : ShardMergeIterator α) (lp rp : Option α) :
    ShardMergeIterator.next cmp (.node l r lp rp)
      = ShardMergeIterator.consume cmp (ShardMergeIterator.fillP cmp l lp)
          (ShardMergeIterator.fillP cmp r rp) := by
  cases lp <;> cases rp <;>
    simp only [ShardMergeIterator.next, ShardMergeIterator.fillP,
      ShardMergeIterator.consume] <;>
    rcases ShardMergeIterator.next cmp l with _ | ⟨a, l2⟩ <;>
    rcases ShardMergeIterator.next cmp r with _ | ⟨b, r2⟩ <;>
    rfl

theorem ShardMergeIterator.fillP_eq {α : Type _} (cmp : α → α → Ordering)
    (c : ShardMergeIterator α) (s : Option α) :
    (∃ x, s = some x ∧ ShardMergeIterator.fillP cmp c s = (c, some x)) ∨
    (s = none ∧ ShardMergeIterator.next cmp c = none ∧
      ShardMergeIterator.fillP cmp c s = (c, none)) ∨
    (s = none ∧ ∃ a c2, ShardMergeIterator.next cmp c = some (a, c2) ∧
      ShardMergeIterator.fillP cmp c s = (c2, some a)) := by
  cases s with
  | some x => exact Or.inl ⟨x, rfl, rfl⟩
  | none =>
    cases hn : ShardMergeIterator.next cmp c with
    | none =>
      refine Or.inr (Or.inl ⟨rfl, ?_, ?_⟩)
      · rfl
      · simp [ShardMergeIterator.fillP, hn]
    | some p =>
      refine Or.inr (Or.inr ⟨rfl, p.1, p.2, ?_, ?_⟩)
      · rfl
      · simp [ShardMergeIterator.fillP, hn]

theorem ShardMergeIterator.consume_none {α : Type _} (cmp : α → α → Ordering)
    (lf rf : ShardMergeIterator α × Option α)
    (h : ShardMergeIterator.consume cmp lf rf = none) :
    lf.2 = none ∧ rf.2 = none := by
  rcases lf with ⟨l1, _ | a⟩ <;> rcases rf with ⟨r1, _ | b⟩
  · exact ⟨rfl, rfl⟩
  · simp [ShardMergeIterator.consume] at h
  · simp [ShardMergeIterator.consume] at h
  · simp only [ShardMergeIterator.consume] at h
    rcases hc : cmp a b <;> rw [hc] at h <;> simp at h

theorem ShardMergeIterator.next_none_elems {α : Type _} (cmp : α → α → Ordering) :
    ∀ t : ShardMergeIterator α, ShardMergeIterator.next cmp t = none →
      ShardMergeIterator.elems t = [] := by
  intro t
  induction t with
  | leaf l =>
    cases l with
    | nil => intro _; rfl
    | cons a l => intro h; simp [ShardMergeIterator.next] at h
  | node l r lp rp ihl ihr =>
    intro h
    rw [ShardMergeIterator.next_node] at h
    obtain ⟨hl2, hr2⟩ := ShardMergeIterator.consume_none cmp _ _ h
    rcases ShardMergeIterator.fillP_eq cmp l lp with
      ⟨x, hs, hf⟩ | ⟨hs, hn, hf⟩ | ⟨hs, a, c2, hn, hf⟩
    · rw [hf] at hl2
      simp at hl2
    · rcases ShardMergeIterator.fillP_eq cmp r rp with
        ⟨y, hs2, hf2⟩ | ⟨hs2, hn2, hf2⟩ | ⟨hs2, b, d2, hn2, hf2⟩
      · rw [hf2] at hr2
        simp at hr2
      · subst hs
        subst hs2
        simp [ShardMergeIterator.elems, ihl hn, ihr hn2]
      · rw [hf2] at hr2
        simp at hr2
    · rw [hf] at hl2
      simp at hl2

theorem ShardMergeIterator.next_perm {α : Type _} (cmp : α → α → Ordering) :
    ∀ (t t' : ShardMergeIterator α) (a : α),
      ShardMergeIterator.next cmp t = some (a, t') →
      (a :: t'.elems).Perm t.elems := by
  intro t
  induction t with
  | leaf l =>
    intro t' a h
    cases l with
    | nil => simp [ShardMergeIterator.next] at h
    | cons x xs =>
      simp only [ShardMergeIterator.next, Option.some.injEq, Prod.mk.injEq] at h
      obtain ⟨rfl, rfl⟩ := h
      exact List.Perm.refl _
  | node l r lp rp ihl ihr =>
    intro t' a h
    rw [ShardMergeIterator.next_node] at h
    have hL := ShardMergeIterator.fillP_eq cmp l lp
    have hR := ShardMergeIterator.fillP_eq cmp r rp
    rcases hfl : ShardMergeIterator.fillP cmp l lp with ⟨l1, ls⟩
    rcases hfr : ShardMergeIterator.fillP cmp r rp with ⟨r1, rs⟩
    rw [hfl, hfr] at h
    have hpl : List.Perm (ls.toList ++ l1.elems) (lp.toList ++ l.elems) := by
      rcases hL with ⟨x, hs, hf⟩ | ⟨hs, hn, hf⟩ | ⟨hs, a2, c2, hn, hf⟩
      · rw [hfl] at hf
        injection hf with h1 h2
        subst h1
        subst h2
        subst hs
        exact List.Perm.refl _
      · rw [hfl] at hf
        injection hf with h1 h2
        subst h1
        subst h2
        subst hs
        exact List.Perm.refl _
      · rw [hfl] at hf
        injection hf with h1 h2
        subst h1
        subst h2
        subst hs
        simpa using ihl _ _ hn
    have hpr : List.Perm (rs.toList ++ r1.elems) (rp.toList ++ r.elems) := by
      rcases hR with ⟨x, hs, hf⟩ | ⟨hs, hn, hf⟩ | ⟨hs, a2, c2, hn, hf⟩
      · rw [hfr] at hf
        injection hf with h1 h2
        subst h1
        subst h2
        subst hs
        exact List.Perm.refl _
      · rw [hfr] at hf
        injection hf with h1 h2
        subst h1
        subst h2
        subst hs
        exact List.Perm.refl _
      · rw [hfr] at hf
        injection hf with h1 h2
        subst h1
        subst h2
        subst hs
        simpa using ihr _ _ hn
    have hgoal : ∀ u : List α,
        List.Perm u ((ls.toList ++ l1.elems) ++ (rs.toList ++ r1.elems)) →
        List.Perm u (ShardMergeIterator.node l r lp rp).elems := by
      intro u hu
      refine hu.trans ((hpl.append hpr).trans ?_)
      show List.Perm (lp.toList ++ l.elems ++ (rp.toList ++ r.elems)) _
      simp only [ShardMergeIterator.elems, List.append_assoc]
      exact List.Perm.refl _
    cases ls with
    | none =>
      cases rs with
      | none => simp [ShardMergeIterator.consume] at h
      | some b =>
        simp only [ShardMergeIterator.consume, Option.some.injEq, Prod.mk.injEq] at h
        obtain ⟨rfl, rfl⟩ := h
        apply hgoal
        show List.Perm (b :: ([] ++ l1.elems ++ [] ++ r1.elems))
          (([] ++ l1.elems) ++ (b :: r1.elems))
        simp only [List.nil_append, List.append_nil]
        exact List.perm_middle.symm
    | some x =>
      cases rs with
      | none =>
        simp only [ShardMergeIterator.consume, Option.some.injEq, Prod.mk.injEq] at h
        obtain ⟨rfl, rfl⟩ := h
        apply hgoal
        show List.Perm (x :: ([] ++ l1.elems ++ [] ++ r1.elems))
          ((x :: l1.elems) ++ ([] ++ r1.elems))
        simp only [List.nil_append, List.append_nil, List.cons_append]
        exact List.Perm.refl _
      | some b =>
        simp only [ShardMergeIterator.consume] at h
        cases hc : cmp x b with
        | gt =>
          rw [hc] at h
          simp only [Option.some.injEq, Prod.mk.injEq] at h
          obtain ⟨rfl, rfl⟩ := h
          apply hgoal
          show List.Perm (b :: ([x] ++ l1.elems ++ [] ++ r1.elems))
            ((x :: l1.elems) ++ (b :: r1.elems))
          simp only [List.append_nil, List.singleton_append, List.cons_append]
          show List.Perm (b :: x :: (l1.elems ++ r1.elems))
            (x :: (l1.elems ++ b :: r1.elems))
          refine List.Perm.trans (List.Perm.swap x b _) ?_
          refine List.Perm.cons x ?_
          exact List.perm_middle.symm
        | lt =>
          rw [hc] at h
          simp only [Option.some.injEq, Prod.mk.injEq] at h
          obtain ⟨rfl, rfl⟩ := h
          apply hgoal
          show List.Perm (x :: ([] ++ l1.elems ++ [b] ++ r1.elems))
            ((x :: l1.elems) ++ (b :: r1.elems))
          simp only [List.nil_append, List.cons_append]
          refine List.Perm.cons x ?_
          rw [List.append_assoc, List.singleton_append]
        | eq =>
          rw [hc] at h
          simp only [Option.some.injEq, Prod.mk.injEq] at h
          obtain ⟨rfl, rfl⟩ := h
          apply hgoal
          show List.Perm (x :: ([] ++ l1.elems ++ [b] ++ r1.elems))
            ((x :: l1.elems) ++ (b :: r1.elems))
          simp only [List.nil_append, List.cons_append]
          refine List.Perm.cons x ?_
          rw [List.append_assoc, List.singleton_append]

theorem ShardMergeIterator.mem_elems_node {α : Type _} (y : α)
    (l r : ShardMergeIterator α) (lp rp : Option α) :
    y ∈ (ShardMergeIterator.node l r lp rp).elems ↔
      (y ∈ lp.toList ∨ y ∈ l.elems ∨ y ∈ rp.toList ∨ y ∈ r.elems) := by
  show y ∈ lp.toList ++ l.elems ++ rp.toList ++ r.elems ↔ _
  simp [List.mem_append]

theorem ShardMergeIterator.next_inv {α : Type _} {cmp : α → α → Ordering}
    (hL : CmpLaws cmp) :
    ∀ (t t' : ShardMergeIterator α) (a : α), ShardMergeIterator.inv cmp t →
      ShardMergeIterator.next cmp t = some (a, t') →
      ShardMergeIterator.inv cmp t' ∧ ∀ x ∈ t'.elems, cmp a x ≠ .gt := by
  intro t
  induction t with
  | leaf l =>
    intro t' a hinv h
    cases l with
    | nil => simp [ShardMergeIterator.next] at h
    | cons x xs =>
      simp only [ShardMergeIterator.next, Option.some.injEq, Prod.mk.injEq] at h
      obtain ⟨rfl, rfl⟩ := h
      rw [ShardMergeIterator.inv, List.pairwise_cons] at hinv
      exact ⟨hinv.2, hinv.1⟩
  | node l r lp rp ihl ihr =>
    intro t' a hinv h
    obtain ⟨hil, hir, hsl, hsr⟩ := hinv
    rw [ShardMergeIterator.next_node] at h
    have hFL := ShardMergeIterator.fillP_eq cmp l lp
    have hFR := ShardMergeIterator.fillP_eq cmp r rp
    rcases hfl : ShardMergeIterator.fillP cmp l lp with ⟨l1, ls⟩
    rcases hfr : ShardMergeIterator.fillP cmp r rp with ⟨r1, rs⟩
    rw [hfl, hfr] at h
    have hIl : ShardMergeIterator.inv cmp l1 ∧
        (∀ x, ls = some x → ∀ y ∈ l1.elems, cmp x y ≠ .gt) ∧
        (ls = none → l1.elems = []) := by
      rcases hFL with ⟨x, hs, hf⟩ | ⟨hs, hn, hf⟩ | ⟨hs, a2, c2, hn, hf⟩ <;>
        rw [hfl] at hf <;> injection hf with h1 h2 <;> subst h1 <;> subst h2
      · refine ⟨hil, ?_, by simp⟩
        intro x2 hx2
        injection hx2 with hx2
        subst hx2
        subst hs
        exact hsl _ rfl
      · exact ⟨hil, by simp, fun _ => ShardMergeIterator.next_none_elems cmp _ hn⟩
      · have := ihl _ _ hil hn
        refine ⟨this.1, ?_, by simp⟩
        intro x2 hx2
        injection hx2 with hx2
        subst hx2
        exact this.2
    have hIr : ShardMergeIterator.inv cmp r1 ∧
        (∀ x, rs = some x → ∀ y ∈ r1.elems, cmp x y ≠ .gt) ∧
        (rs = none → r1.elems = []) := by
      rcases hFR with ⟨x, hs, hf⟩ | ⟨hs, hn, hf⟩ | ⟨hs, a2, c2, hn, hf⟩ <;>
        rw [hfr] at hf <;> injection hf with h1 h2 <;> subst h1 <;> subst h2
      · refine ⟨hir, ?_, by simp⟩
        intro x2 hx2
        injection hx2 with hx2
        subst hx2
        subst hs
        exact hsr _ rfl
      · exact ⟨hir, by simp, fun _ => ShardMergeIterator.next_none_elems cmp _ hn⟩
      · have := ihr _ _ hir hn
        refine ⟨this.1, ?_, by simp⟩
        intro x2 hx2
        injection hx2 with hx2
        subst hx2
        exact this.2
    cases ls with
    | none =>
      cases rs with
      | none => simp [ShardMergeIterator.consume] at h
      | some b =>
        simp only [ShardMergeIterator.consume, Option.some.injEq, Prod.mk.injEq] at h
        obtain ⟨rfl, rfl⟩ := h
        have hle : l1.elems = [] := hIl.2.2 rfl
        refine ⟨⟨hIl.1, hIr.1, by simp, by simp⟩, ?_⟩
        intro y hy
        rw [ShardMergeIterator.mem_elems_node] at hy
        rcases hy with hy | hy | hy | hy
        · simp at hy
        · rw [hle] at hy; simp at hy
        · simp at hy
        · exact hIr.2.1 b rfl y hy
    | some x =>
      cases rs with
      | none =>
        simp only [ShardMergeIterator.consume, Option.some.injEq, Prod.mk.injEq] at h
        obtain ⟨rfl, rfl⟩ := h
        have hre : r1.elems = [] := hIr.2.2 rfl
        refine ⟨⟨hIl.1, hIr.1, by simp, by simp⟩, ?_⟩
        intro y hy
        rw [ShardMergeIterator.mem_elems_node] at hy
        rcases hy with hy | hy | hy | hy
        · simp at hy
        · exact hIl.2.1 x rfl y hy
        · simp at hy
        · rw [hre] at hy; simp at hy
      | some b =>
        simp only [ShardMergeIterator.consume] at h
        cases hc : cmp x b with
        | gt =>
          rw [hc] at h
          simp only [Option.some.injEq, Prod.mk.injEq] at h
          obtain ⟨rfl, rfl⟩ := h
          have hbx : cmp b x = .lt := hL.lt_of_gt hc
          refine ⟨⟨hIl.1, hIr.1, ?_, by simp⟩, ?_⟩
          · intro a2 ha2
            injection ha2 with ha2
            subst ha2
            exact hIl.2.1 _ rfl
          · intro y hy
            rw [ShardMergeIterator.mem_elems_node] at hy
            rcases hy with hy | hy | hy | hy
            · rcases List.mem_singleton.mp hy with rfl
              simp [hbx]
            · exact hL.le_trans b x y (by simp [hbx]) (hIl.2.1 x rfl y hy)
            · simp at hy
            · exact hIr.2.1 b rfl y hy
        | lt =>
          rw [hc] at h
          simp only [Option.some.injEq, Prod.mk.injEq] at h
          obtain ⟨rfl, rfl⟩ := h
          refine ⟨⟨hIl.1, hIr.1, by simp, ?_⟩, ?_⟩
          · intro b2 hb2
            injection hb2 with hb2
            subst hb2
            exact hIr.2.1 _ rfl
          · intro y hy
            rw [ShardMergeIterator.mem_elems_node] at hy
            rcases hy with hy | hy | hy | hy
            · simp at hy
            · exact hIl.2.1 x rfl y hy
            · rcases List.mem_singleton.mp hy with rfl
              simp [hc]
            · exact hL.le_trans x b y (by simp [hc]) (hIr.2.1 b rfl y hy)
        | eq =>
          rw [hc] at h
          simp only [Option.some.injEq, Prod.mk.injEq] at h
          obtain ⟨rfl, rfl⟩ := h
          refine ⟨⟨hIl.1, hIr.1, by simp, ?_⟩, ?_⟩
          · intro b2 hb2
            injection hb2 with hb2
            subst hb2
            exact hIr.2.1 _ rfl
          · intro y hy
            rw [ShardMergeIterator.mem_elems_node] at hy
            rcases hy with hy | hy | hy | hy
            · simp at hy
            · exact hIl.2.1 x rfl y hy
            · rcases List.mem_singleton.mp hy with rfl
              simp [hc]
            · exact hL.le_trans x b y (by simp [hc]) (hIr.2.1 b rfl y hy)

theorem ShardMergeIterator.size_eq {α : Type _} :
    ∀ t : ShardMergeIterator α, t.size = t.elems.length := by
  intro t
  induction t with
  | leaf l => rfl
  | node l r lp rp ihl ihr =>
    simp [ShardMergeIterator.size, ShardMergeIterator.elems, ihl, ihr]
    omega

theorem ShardMergeIterator.toListGo_perm {α : Type _} (cmp : α → α → Ordering) :
    ∀ (n : Nat) (t : ShardMergeIterator α), t.elems.length ≤ n →
      (ShardMergeIterator.toListGo cmp n t).Perm t.elems := by
  intro n
  induction n with
  | zero =>
    intro t ht
    have : t.elems = [] := List.length_eq_zero.mp (Nat.le_zero.mp ht)
    rw [ShardMergeIterator.toListGo, this]
  | succ n ih =>
    intro t ht
    cases hn : ShardMergeIterator.next cmp t with
    | none =>
      rw [ShardMergeIterator.toListGo, hn,
        ShardMergeIterator.next_none_elems cmp t hn]
    | some p =>
      rcases p with ⟨a, t2⟩
      have hperm := ShardMergeIterator.next_perm cmp t t2 a hn
      have hlen : t2.elems.length ≤ n := by
        have := hperm.length_eq
        simp only [List.length_cons] at this
        omega
      rw [ShardMergeIterator.toListGo, hn]
      exact ((ih t2 hlen).cons a).trans hperm

theorem ShardMergeIterator.toListGo_subset {α : Type _} (cmp : α → α → Ordering) :
    ∀ (n : Nat) (t : ShardMergeIterator α) (x : α),
      x ∈ ShardMergeIterator.toListGo cmp n t → x ∈ t.elems := by
  intro n
  induction n with
  | zero => intro t x hx; rw [ShardMergeIterator.toListGo] at hx; simp at hx
  | succ n ih =>
    intro t x hx
    rw [ShardMergeIterator.toListGo] at hx
    cases hn : ShardMergeIterator.next cmp t with
    | none => rw [hn] at hx; simp at hx
    | some p =>
      rcases p with ⟨a, t2⟩
      rw [hn] at hx
      have hperm := ShardMergeIterator.next_perm cmp t t2 a hn
      rcases List.mem_cons.mp hx with rfl | hx
      · exact hperm.subset (List.mem_cons_self x t2.elems)
      · exact hperm.subset (List.mem_cons_of_mem a (ih t2 x hx))

theorem ShardMergeIterator.toListGo_sorted {α : Type _} {cmp : α → α → Ordering}
    (hL : CmpLaws cmp) :
    ∀ (n : Nat) (t : ShardMergeIterator α), ShardMergeIterator.inv cmp t →
      (ShardMergeIterator.toListGo cmp n t).Pairwise (fun a b => cmp a b ≠ .gt) := by
  intro n
  induction n with
  | zero => intro t _; rw [ShardMergeIterator.toListGo]; exact List.Pairwise.nil
  | succ n ih =>
    intro t hinv
    cases hn : ShardMergeIterator.next cmp t with
    | none => rw [ShardMergeIterator.toListGo, hn]; exact List.Pairwise.nil
    | some p =>
      rcases p with ⟨a, t2⟩
      have hni := ShardMergeIterator.next_inv hL t t2 a hinv hn
      rw [ShardMergeIterator.toListGo, hn]
      refine List.pairwise_cons.mpr ⟨?_, ih t2 hni.1⟩
      intro b hb
      exact hni.2 b (ShardMergeIterator.toListGo_subset cmp n t2 b hb)

theorem ShardMergeIterator.elems_mergeGo {α : Type _} :
    ∀ (fuel : Nat) (its : List (ShardMergeIterator α)), its.length ≤ fuel + 2 →
      (ShardMergeIterator.mergeGo fuel its).elems
        = (its.map ShardMergeIterator.elems).flatten := by
  intro fuel
  induction fuel with
  | zero =>
    intro its hlen
    rcases its with _ | ⟨t1, _ | ⟨t2, _ | ⟨t3, ts⟩⟩⟩
    · rfl
    · simp [ShardMergeIterator.mergeGo, ShardMergeIterator.elems,
        ShardMergeIterator.default]
    · simp [ShardMergeIterator.mergeGo, ShardMergeIterator.elems]
    · simp at hlen
  | succ fuel ih =>
    intro its hlen
    rcases its with _ | ⟨t1, _ | ⟨t2, _ | ⟨t3, ts⟩⟩⟩
    · rfl
    · simp [ShardMergeIterator.mergeGo, ShardMergeIterator.elems,
        ShardMergeIterator.default]
    · simp [ShardMergeIterator.mergeGo, ShardMergeIterator.elems]
    · have hlen3 : (t1 :: t2 :: t3 :: ts).length = ts.length + 3 := by simp
      have h1 : ((t1 :: t2 :: t3 :: ts).take ((t1 :: t2 :: t3 :: ts).length / 2)).length
          ≤ fuel + 2 := by
        rw [List.length_take]
        simp only [hlen3] at *
        omega
      have h2 : ((t1 :: t2 :: t3 :: ts).drop ((t1 :: t2 :: t3 :: ts).length / 2)).length
          ≤ fuel + 2 := by
        rw [List.length_drop]
        simp only [hlen3] at *
        omega
      show (ShardMergeIterator.node _ _ none none).elems = _
      rw [ShardMergeIterator.elems, ih _ h1, ih _ h2]
      simp only [Option.toList, List.append_eq, List.nil_append, List.append_nil]
      rw [← List.flatten_append, ← List.map_append, List.take_append_drop]

theorem ShardMergeIterator.inv_mergeGo {α : Type _} {cmp : α → α → Ordering} :
    ∀ (fuel : Nat) (its : List (ShardMergeIterator α)),
      (∀ t ∈ its, ShardMergeIterator.inv cmp t) →
      ShardMergeIterator.inv cmp (ShardMergeIterator.mergeGo fuel its) := by
  intro fuel
  induction fuel with
  | zero =>
    intro its hits
    rcases its with _ | ⟨t1, _ | ⟨t2, _ | ⟨t3, ts⟩⟩⟩
    · exact ⟨List.Pairwise.nil, List.Pairwise.nil, by simp, by simp⟩
    · exact ⟨hits t1 (by simp), List.Pairwise.nil, by simp, by simp⟩
    · exact ⟨hits t1 (by simp), hits t2 (by simp), by simp, by simp⟩
    · exact hits t1 (by simp)
  | succ fuel ih =>
    intro its hits
    rcases its with _ | ⟨t1, _ | ⟨t2, _ | ⟨t3, ts⟩⟩⟩
    · exact ⟨List.Pairwise.nil, List.Pairwise.nil, by simp, by simp⟩
    · exact ⟨hits t1 (by simp), List.Pairwise.nil, by simp, by simp⟩
    · exact ⟨hits t1 (by simp), hits t2 (by simp), by simp, by simp⟩
    · refine ⟨?_, ?_, by simp, by simp⟩
      · exact ih _ (fun t ht => hits t ((List.take_sublist _ _).subset ht))
      · exact ih _ (fun t ht => hits t ((List.drop_sublist _ _).subset ht))

theorem ShardMergeIterator.buildPairs_facts {α : Type _} {cmp : α → α → Ordering} :
    ∀ (n : Nat) (srcs : List (List α)), srcs.length ≤ n →
      ((((ShardMergeIterator.buildPairs srcs).map ShardMergeIterator.elems).flatten
          = srcs.flatten) ∧
       ((∀ s ∈ srcs, s.Pairwise (fun a b => cmp a b ≠ .gt)) →
          ∀ t ∈ ShardMergeIterator.buildPairs srcs, ShardMergeIterator.inv cmp t)) := by
  intro n
  induction n with
  | zero =>
    intro srcs hlen
    have : srcs = [] := List.length_eq_zero.mp (Nat.le_zero.mp hlen)
    subst this
    exact ⟨rfl, by simp [ShardMergeIterator.buildPairs]⟩
  | succ n ih =>
    intro srcs hlen
    rcases srcs with _ | ⟨s1, _ | ⟨s2, rest⟩⟩
    · exact ⟨rfl, by simp [ShardMergeIterator.buildPairs]⟩
    · constructor
      · simp [ShardMergeIterator.buildPairs, ShardMergeIterator.elems]
      · intro hs t ht
        simp only [ShardMergeIterator.buildPairs, List.mem_singleton] at ht
        subst ht
        exact ⟨hs s1 (by simp), List.Pairwise.nil, by simp, by simp⟩
    · have hrest : rest.length ≤ n := by
        simp only [List.length_cons] at hlen
        omega
      obtain ⟨ihe, ihi⟩ := ih rest hrest
      constructor
      · simp only [ShardMergeIterator.buildPairs, List.map_cons, List.flatten_cons,
          ShardMergeIterator.elems, ihe]
        simp
      · intro hs t ht
        simp only [ShardMergeIterator.buildPairs, List.mem_cons] at ht
        rcases ht with rfl | ht
        · exact ⟨hs s1 (by simp), hs s2 (by simp), by simp, by simp⟩
        · exact ihi (fun s hsm => hs s (by simp [hsm])) t ht

/-- **C1.** For every finite list of input sources each sorted
(non-decreasing) under a lawful comparator, draining the merge tree built by
`ShardMergeIterator::build_with_cmp` yields a sequence that is sorted under
that comparator, has length equal to the sum of the input lengths, and is a
permutation of the concatenated inputs. -/
theorem C1_merge_sorted_and_length {α : Type _} (cmp : α → α → Ordering)
    (hL : CmpLaws cmp) (srcs : List (List α))
    (hs : ∀ s ∈ srcs, s.Pairwise (fun a b => cmp a b ≠ .gt)) :
    (ShardMergeIterator.toList cmp (ShardMergeIterator.build_with_cmp srcs)).Pairwise
        (fun a b => cmp a b ≠ .gt) ∧
    (ShardMergeIterator.toList cmp (ShardMergeIterator.build_with_cmp srcs)).length
        = (srcs.map List.length).sum ∧
    (ShardMergeIterator.toList cmp (ShardMergeIterator.build_with_cmp srcs)).Perm
        srcs.flatten := by
  have hbp := @ShardMergeIterator.buildPairs_facts _ cmp srcs.length srcs le_rfl
  have helems : (ShardMergeIterator.build_with_cmp srcs).elems = srcs.flatten := by
    rw [ShardMergeIterator.build_with_cmp, ShardMergeIterator._build,
      ShardMergeIterator.merge,
      ShardMergeIterator.elems_mergeGo _ _ (Nat.le_add_right _ 2), hbp.1]
  have hinv : ShardMergeIterator.inv cmp (ShardMergeIterator.build_with_cmp srcs) :=
    ShardMergeIterator.inv_mergeGo _ _ (hbp.2 hs)
  have hperm : (ShardMergeIterator.toList cmp
      (ShardMergeIterator.build_with_cmp srcs)).Perm srcs.flatten := by
    rw [ShardMergeIterator.toList, ShardMergeIterator.size_eq]
    exact (ShardMergeIterator.toListGo_perm cmp _ _ le_rfl).trans (helems ▸ List.Perm.refl _)
  refine ⟨?_, ?_, hperm⟩
  · exact ShardMergeIterator.toListGo_sorted hL _ _ hinv
  · rw [hperm.length_eq, List.length_flatten]

/-- Witness for C1: the six integer vectors of the reference test
(`test_merge_large`) are each sorted under `natCmp`, and the merged stream is
sorted with length 52 = 12+13+11+4+5+7. -/
theorem C1_witness :
    (∀ s ∈ sixTestVectors, s.Pairwise (fun a b => natCmp a b ≠ .gt)) ∧
    (ShardMergeIterator.toList natCmp
        (ShardMergeIterator.build_with_cmp sixTestVectors)).Pairwise
        (fun a b => natCmp a b ≠ .gt) ∧
    (ShardMergeIterator.toList natCmp
        (ShardMergeIterator.build_with_cmp sixTestVectors)).length = 52 := by
  refine ⟨by decide, (C1_merge_sorted_and_length natCmp natCmp_laws
    sixTestVectors (by decide)).1, ?_⟩
  rw [(C1_merge_sorted_and_length natCmp natCmp_laws sixTestVectors (by decide)).2.1]
  decide
